import Mathlib

/-!
# Cindy: label state machine, tag codec, label stores, schema validator and review gate

A shallow embedding of the Go package `cindy` (files `cindy.go`, `labeler.go`,
`memory_labeler.go`, `git_labeler.go`, `manifest.go`, `review.go`) together
with theorems about it.

Modelling conventions.

* A Go `string` is a Lean `String`, that is, UTF-8 text.  The string
  operations the package uses are concatenation, comparison,
  `strings.HasPrefix`, `strings.TrimPrefix`, `strings.TrimSpace` and
  `strings.Split`; they are embedded on the character list of the string, where
  they agree with the byte-wise Go operations on UTF-8 text.
* A Go slice is a Lean `List`; a `nil` slice and an empty slice are both `[]`
  (the package only ever ranges over slices, appends to them and takes `len`).
* A Go `map` literal with pairwise distinct constant keys is an association
  list read with `List.lookup`; a missing key is `none`.
* A `for ... range` loop with an early `return` is a structural recursion over
  the list; a loop that appends to an accumulator is a `List.foldl`.
* The value of a mutable Go `map[string]Label` is an `AList`.  In the in-memory
  store a map variable is `nil` or an address into a heap of map objects, an
  assignment to an entry of a nil map panics, and a `range` over a map runs
  over an explicit iteration order.
* A Go `error` is an `Option String`, `none` being `nil`.
* The `git` commands that `git_labeler.go` runs are the fields of the
  structure `GitLabeler`, each a function on the state of the version-control
  collaborator; the methods thread that state.  The repository `Repo` is one
  such collaborator: its listing is what `listTags` makes of the output of
  `git tag -l`, and its `git tag` follows git's rules for reference names.
-/

namespace Cindy

/-! ## Go string primitives -/

/-- Go `strings.HasPrefix(s, p)`: does `s` begin with `p`. -/
def strings.HasPrefix (s p : String) : Bool :=
  p.data.isPrefixOf s.data

/-- Go `strings.TrimPrefix(s, p)`: `s` without the leading `p`, or `s` itself
when `s` does not begin with `p`. -/
def strings.TrimPrefix (s p : String) : String :=
  if strings.HasPrefix s p then ⟨s.data.drop p.data.length⟩ else s

/-! ## cindy.go: label vocabulary and transition table -/

/-- Go `type Label string`. -/
abbrev Label := String

def Ready : Label := "cindy:ready"
def Analyzing : Label := "cindy:analyzing"
def Approved : Label := "cindy:approved"
def Blocked : Label := "cindy:blocked"
def Deploying : Label := "cindy:deploying"
def Deployed : Label := "cindy:deployed"
def Rejected : Label := "cindy:rejected"
def Rollback : Label := "cindy:rollback"
def HumanReview : Label := "cindy:human-review"
def RevisionRequested : Label := "cindy:revision-requested"

/-- Go `AllLabels()`: all valid labels, in enumeration order. -/
def AllLabels : List Label :=
  [Ready, Analyzing, Approved, Blocked, Deploying,
   Deployed, Rejected, Rollback, HumanReview, RevisionRequested]

/-- The entries of the Go map literal `validTransitions`, in source order. -/
def validTransitionsEntries : List (Label × List Label) :=
  [ (Ready, [Analyzing]),
    (Analyzing, [Approved, Rejected, HumanReview, Blocked, RevisionRequested]),
    (Approved, [Deploying, Blocked]),
    (Blocked, [Approved]),
    (Deploying, [Deployed, Rollback]),
    (HumanReview, [Approved, Rejected, RevisionRequested]),
    (RevisionRequested, [Ready]),
    (Deployed, [Rollback]) ]

/-- Go `validTransitions[from]` in its two-result form: `some targets` when
the key is registered, `none` otherwise. -/
def validTransitions (frm : Label) : Option (List Label) :=
  validTransitionsEntries.lookup frm

/-- The loop of `CanTransition`: return `true` at the first target equal to
the destination (`to` in the source, a reserved word here), `false` when the
targets are exhausted. -/
def CanTransition.loop (dest : Label) : List Label → Bool
  | [] => false
  | t :: ts => if t = dest then true else CanTransition.loop dest ts

/-- Go `CanTransition(from, to)`; `frm` and `dest` stand for the source's
`from` and `to`, which are reserved words here. -/
def CanTransition (frm dest : Label) : Bool :=
  match validTransitions frm with
  | none => false
  | some targets => CanTransition.loop dest targets

/-- Go `ValidTransitionsFrom(from)`: the single-result map read, which gives
the zero value (the `nil` slice) for a missing key. -/
def ValidTransitionsFrom (frm : Label) : List Label :=
  (validTransitions frm).getD []

/-- Go `IsTerminal(l)`. -/
def IsTerminal (l : Label) : Bool :=
  let targets := (validTransitions l).getD []
  targets.length == 0

/-! ## labeler.go: tag codec -/

/-- Go `const TagPrefix`. -/
def TagPrefix : String := "cindy/"

/-- Go `ShortLabel(l)`. -/
def ShortLabel (l : Label) : String :=
  strings.TrimPrefix l "cindy:"

/-- Go `TagName(label, branch)`. -/
def TagName (label : Label) (branch : String) : String :=
  TagPrefix ++ ShortLabel label ++ "/" ++ branch

/-- Go `allLabels()`, the private alias of `AllLabels()`. -/
def allLabels : List Label := AllLabels

/-- The loop of `ParseTag` over the labels still to be tried. -/
def ParseTag.loop (rest : String) : List Label → Label × String × Bool
  | [] => ("", "", false)
  | l :: ls =>
    let short := ShortLabel l
    let pfx := short ++ "/"
    if strings.HasPrefix rest pfx then
      let branch := strings.TrimPrefix rest pfx
      if branch ≠ "" then (l, branch, true) else ParseTag.loop rest ls
    else ParseTag.loop rest ls

/-- Go `ParseTag(tag)`. -/
def ParseTag (tag : String) : Label × String × Bool :=
  if !strings.HasPrefix tag TagPrefix then ("", "", false)
  else
    let rest := strings.TrimPrefix tag TagPrefix
    ParseTag.loop rest allLabels

/-! ## manifest.go: change manifest and schema safety validator -/

/-- Go `type SchemaChangeType string`. -/
abbrev SchemaChangeType := String

def SchemaExtension : SchemaChangeType := "extension"
def SchemaNew : SchemaChangeType := "new"

/-- Go `struct SchemaChange`.  The field `Typ` is the source's `Type`, a
reserved word here. -/
structure SchemaChange where
  Subject : String
  Typ : SchemaChangeType
  FieldsAdded : List String
  FieldsRemoved : List String
  FieldsModified : List String
  deriving DecidableEq, Repr

/-- Go `struct Manifest`; the nullable `RespondsTo *string` is an `Option`. -/
structure Manifest where
  Revision : Int
  RespondsTo : Option String
  SubjectsAffected : List String
  SchemaChanges : List SchemaChange
  Consumers : List String
  RiskSelfAssessment : String
  DependsOn : List String
  Description : String
  deriving DecidableEq, Repr

/-- Go `struct SchemaViolation`. -/
structure SchemaViolation where
  Subject : String
  Field : String
  Rule : String
  deriving DecidableEq, Repr

/-- The first inner loop of `ValidateSchemaChanges`: one violation appended per
removed field. -/
def ValidateSchemaChanges.removedLoop (sc : SchemaChange)
    (violations : List SchemaViolation) : List SchemaViolation :=
  sc.FieldsRemoved.foldl
    (fun violations f => violations ++
      [{ Subject := sc.Subject, Field := f,
         Rule := "field removal not allowed (deprecate instead)" }])
    violations

/-- The second inner loop of `ValidateSchemaChanges`: one violation appended
per modified field. -/
def ValidateSchemaChanges.modifiedLoop (sc : SchemaChange)
    (violations : List SchemaViolation) : List SchemaViolation :=
  sc.FieldsModified.foldl
    (fun violations f => violations ++
      [{ Subject := sc.Subject, Field := f,
         Rule := "field type modification not allowed (add new field instead)" }])
    violations

/-- Go `ValidateSchemaChanges(m)`: the outer loop over `m.SchemaChanges`
threading the accumulator `violations`, which starts as the `nil` slice. -/
def ValidateSchemaChanges (m : Manifest) : List SchemaViolation :=
  m.SchemaChanges.foldl
    (fun violations sc =>
      ValidateSchemaChanges.modifiedLoop sc
        (ValidateSchemaChanges.removedLoop sc violations))
    []

/-! ## review.go: review gate -/

/-- Go `type Verdict string`. -/
abbrev Verdict := String

def Approve : Verdict := "approve"
def RequestChanges : Verdict := "request_changes"
def Comment : Verdict := "comment"

/-- Go `struct ReviewComment`; the nullable `File` and `Line` are `Option`s. -/
structure ReviewComment where
  ID : String
  File : Option String
  Line : Option Int
  Body : String
  Resolved : Bool
  deriving DecidableEq, Repr

/-- Go `struct Review`. -/
structure Review where
  ID : String
  Branch : String
  Revision : Int
  Actor : String
  Verdict : Verdict
  Comments : List ReviewComment
  Timestamp : String
  deriving DecidableEq, Repr

/-- The loop of `AllResolved`: `false` at the first unresolved comment, `true`
when the comments are exhausted. -/
def AllResolved.loop : List ReviewComment → Bool
  | [] => true
  | c :: cs => if !c.Resolved then false else AllResolved.loop cs

/-- Go `AllResolved(r)`. -/
def AllResolved (r : Review) : Bool :=
  AllResolved.loop r.Comments

/-- Go `UnresolvedComments(r)`: the unresolved comments appended, in order, to
an accumulator that starts as the `nil` slice. -/
def UnresolvedComments (r : Review) : List ReviewComment :=
  r.Comments.foldl
    (fun unresolved c => if !c.Resolved then unresolved ++ [c] else unresolved)
    []

/-- Go `IsBlocking(r)`. -/
def IsBlocking (r : Review) : Bool :=
  r.Verdict == RequestChanges && !AllResolved r

/-! ## Go errors, maps and the heap of map objects -/

/-- Go `error`: `none` is `nil`, `some msg` is an error with its message. -/
abbrev Error := Option String

/-- The value of a Go `map[string]Label`: finitely many entries with pairwise
distinct keys.  `AList.insert k v m` is the assignment `m[k] = v`,
`AList.erase k m` is `delete(m, k)` and `AList.lookup k m` is the two-result
read `m[k]`. -/
abbrev LabelMap := AList (fun _ : String => Label)

/-- Go `m[k]` in its single-result form: the zero value, the empty label, for
a missing key. -/
def mapGet (m : LabelMap) (k : String) : Label :=
  (m.lookup k).getD ""

/-- A Go map is a reference: a variable of map type holds the address of a map
object. -/
abbrev MapRef := Nat

/-- The heap of map objects: the object stored at every address and the next
address that `make` hands out. -/
structure Heap where
  next : MapRef
  cell : MapRef → LabelMap

/-- Go `make(map[string]Label)`: a fresh empty map object. -/
def Heap.make (h : Heap) : Heap × MapRef :=
  ({ next := h.next + 1, cell := Function.update h.cell h.next ∅ }, h.next)

/-- Go `r[k] = v` on the map object at address `r`. -/
def Heap.store (h : Heap) (r : MapRef) (k : String) (v : Label) : Heap :=
  { next := h.next, cell := Function.update h.cell r ((h.cell r).insert k v) }

/-- Go `delete(r, k)` on the map object at address `r`. -/
def Heap.delete (h : Heap) (r : MapRef) (k : String) : Heap :=
  { next := h.next, cell := Function.update h.cell r ((h.cell r).erase k) }

/-- Go `r[k]` on the map object at address `r`. -/
def Heap.load (h : Heap) (r : MapRef) (k : String) : Label :=
  mapGet (h.cell r) k

/-- The heap before anything is allocated. -/
def Heap.empty : Heap :=
  { next := 0, cell := fun _ => ∅ }

/-- A variable of Go map type holds either `nil`, here `none`, or the address
of a map object.  The entries a `range` over the variable runs through: a nil
map has none. -/
def Heap.entriesOf (h : Heap) : Option MapRef → List (Σ _ : String, Label)
  | none => []
  | some r => (h.cell r).entries

/-- Go `m[k]` in its two-result form on a map variable: a nil map has no key. -/
def Heap.lookupVar (h : Heap) : Option MapRef → String → Option Label
  | none, _ => none
  | some r, k => (h.cell r).lookup k

/-- Go `m[k]` in its single-result form on a map variable: the empty label for
a missing key and for a nil map. -/
def Heap.loadVar (h : Heap) (m : Option MapRef) (k : String) : Label :=
  (h.lookupVar m k).getD ""

/-- How a call ends: it returns a value, or it panics with a run-time error. -/
inductive Run (α : Type) where
  | returns (a : α)
  | panics (msg : String)

/-! ## memory_labeler.go: in-memory label store -/

/-- Go `struct MemoryLabeler`: the field `labels` is a map variable.  It is
`nil` in the zero value `MemoryLabeler{}` of the exported type and the address
of a map object in a store made by `NewMemoryLabeler`. -/
structure MemoryLabeler where
  labels : Option MapRef

/-- Go `NewMemoryLabeler()`. -/
def NewMemoryLabeler (h : Heap) : Heap × MemoryLabeler :=
  let (h1, r) := h.make
  (h1, { labels := some r })

/-- Go `(*MemoryLabeler).GetLabel(branch)`; reading a nil map gives the zero
value. -/
def MemoryLabeler.GetLabel (ml : MemoryLabeler) (h : Heap) (branch : String) :
    Label × Error :=
  (h.loadVar ml.labels branch, none)

/-- Go `(*MemoryLabeler).SetLabel(branch, label)`; the assignment
`ml.labels[branch] = label` panics when `ml.labels` is nil. -/
def MemoryLabeler.SetLabel (ml : MemoryLabeler) (h : Heap) (branch : String)
    (label : Label) : Run (Heap × Error) :=
  match ml.labels with
  | none => Run.panics "assignment to entry in nil map"
  | some r => Run.returns (h.store r branch label, none)

/-- The copy loop of `(*MemoryLabeler).AllLabels`: `result[k] = v` for every
entry, in the order `order` in which the `range` over the map yields them. -/
def MemoryLabeler.AllLabels.loop (result : MapRef)
    (order : List (Σ _ : String, Label)) (h : Heap) : Heap :=
  order.foldl (fun h e => h.store result e.1 e.2) h

/-- Go `(*MemoryLabeler).AllLabels()` when the `range` over `ml.labels` yields
the entries in the order `order`.  Go leaves the iteration order of a map
unspecified, so `order` is any permutation of the entries of the map; the
capacity hint of `make` has no observable effect. -/
def MemoryLabeler.AllLabelsIn (order : List (Σ _ : String, Label)) (h : Heap) :
    Heap × MapRef × Error :=
  let (h1, result) := h.make
  (MemoryLabeler.AllLabels.loop result order h1, result, none)

/-- Go `(*MemoryLabeler).AllLabels()` iterating in the stored order of the
entries: `make` runs first, then the `range` reads `ml.labels`; the length and
the range of a nil map are those of an empty map. -/
def MemoryLabeler.AllLabels (ml : MemoryLabeler) (h : Heap) : Heap × MapRef × Error :=
  MemoryLabeler.AllLabelsIn (h.make.1.entriesOf ml.labels) h

/-- The map object that a call of `AllLabels` returned: the object at the
returned address in the heap after the call. -/
def MemoryLabeler.returnedMap (out : Heap × MapRef × Error) : LabelMap :=
  out.1.cell out.2.1

/-- The heap `h2` differs from `h` at most in the map object at address `r`:
what any sequence of assignments and deletions on that one object does. -/
def Heap.agreeOff (r : MapRef) (h h2 : Heap) : Prop :=
  h2.next = h.next ∧ ∀ r2, r2 ≠ r → h2.cell r2 = h.cell r2

/-! ## git_labeler.go: label store on git tags -/

/-- Go `struct GitLabeler`.  The source holds the path of a repository and runs
`git` on it; here the labeler is given by what each of those commands does to
the state `σ` of the version-control collaborator and what it answers.  A
command that can fail answers `none` on success and `some out`, its output, on
failure. -/
structure GitLabeler (σ : Type) where
  /-- The command `git tag -l cindy/*` as `listTags` reads it: on success the
  listed tag names, that is the trimmed output split on newlines (no name for
  an empty output), on failure the error text. -/
  tagList : σ → σ × Except String (List String)
  /-- The command `git tag -d tag`. -/
  tagDelete : σ → String → σ × Option String
  /-- The command `git tag tag HEAD`. -/
  tagCreate : σ → String → σ × Option String
  /-- The command `git remote get-url origin`: did it succeed. -/
  remoteGetUrl : σ → σ × Bool
  /-- The command `git push origin tag`. -/
  push : σ → String → σ × Option String
  /-- The command `git push origin --delete tag`. -/
  pushDelete : σ → String → σ × Option String

/-- Go `(*GitLabeler).listTags()`: a failure is wrapped as `listing tags: ...`. -/
def GitLabeler.listTags {σ : Type} (gl : GitLabeler σ) (s : σ) :
    σ × Except String (List String) :=
  match gl.tagList s with
  | (s1, .error err) => (s1, .error ("listing tags: " ++ err))
  | (s1, .ok tags) => (s1, .ok tags)

/-- Go `(*GitLabeler).deleteTag(tag)`. -/
def GitLabeler.deleteTag {σ : Type} (gl : GitLabeler σ) (s : σ) (tag : String) :
    σ × Error :=
  gl.tagDelete s tag

/-- Go `(*GitLabeler).hasRemote()`. -/
def GitLabeler.hasRemote {σ : Type} (gl : GitLabeler σ) (s : σ) : σ × Bool :=
  gl.remoteGetUrl s

/-- Go `(*GitLabeler).pushTag(tag)`: a failed push only writes a warning to
standard error. -/
def GitLabeler.pushTag {σ : Type} (gl : GitLabeler σ) (s : σ) (tag : String) : σ :=
  match gl.hasRemote s with
  | (s1, false) => s1
  | (s1, true) => (gl.push s1 tag).1

/-- Go `(*GitLabeler).pushDeleteTag(tag)`: a failed remote deletion only writes
a warning to standard error. -/
def GitLabeler.pushDeleteTag {σ : Type} (gl : GitLabeler σ) (s : σ) (tag : String) : σ :=
  match gl.hasRemote s with
  | (s1, false) => s1
  | (s1, true) => (gl.pushDelete s1 tag).1

/-- The loop of `(*GitLabeler).GetLabel`: the label of the first tag that
parses to `branch`, the empty label when the tags are exhausted. -/
def GitLabeler.GetLabel.loop (branch : String) : List String → Label
  | [] => ""
  | tag :: tags =>
    match ParseTag tag with
    | (label, tagBranch, ok) =>
      if ok && tagBranch == branch then label
      else GitLabeler.GetLabel.loop branch tags

/-- Go `(*GitLabeler).GetLabel(branch)`. -/
def GitLabeler.GetLabel {σ : Type} (gl : GitLabeler σ) (s : σ) (branch : String) :
    σ × Label × Error :=
  match gl.listTags s with
  | (s1, .error err) => (s1, "", some err)
  | (s1, .ok tags) => (s1, GitLabeler.GetLabel.loop branch tags, none)

/-- The deletion loop of `(*GitLabeler).SetLabel` over the listed tags. -/
def GitLabeler.SetLabel.loop {σ : Type} (gl : GitLabeler σ) (branch : String) :
    σ → List String → σ × Error
  | s, [] => (s, none)
  | s, tag :: tags =>
    match ParseTag tag with
    | (_, tagBranch, ok) =>
      if ok && tagBranch == branch then
        match gl.deleteTag s tag with
        | (s1, some err) => (s1, some ("deleting old tag " ++ tag ++ ": " ++ err))
        | (s1, none) => GitLabeler.SetLabel.loop gl branch (gl.pushDeleteTag s1 tag) tags
      else GitLabeler.SetLabel.loop gl branch s tags

/-- Go `(*GitLabeler).SetLabel(branch, label)`. -/
def GitLabeler.SetLabel {σ : Type} (gl : GitLabeler σ) (s : σ) (branch : String)
    (label : Label) : σ × Error :=
  match gl.listTags s with
  | (s1, .error err) => (s1, some err)
  | (s1, .ok tags) =>
    match GitLabeler.SetLabel.loop gl branch s1 tags with
    | (s2, some err) => (s2, some err)
    | (s2, none) =>
      let newTag := TagName label branch
      match gl.tagCreate s2 newTag with
      | (s3, some out) => (s3, some ("creating tag " ++ newTag ++ ": " ++ out))
      | (s3, none) => (gl.pushTag s3 newTag, none)

/-- The loop of `(*GitLabeler).AllLabels`: `result[branch] = label` for every
tag that parses. -/
def GitLabeler.AllLabels.loop : List String → LabelMap → LabelMap
  | [], result => result
  | tag :: tags, result =>
    match ParseTag tag with
    | (label, branch, ok) =>
      if ok then GitLabeler.AllLabels.loop tags (result.insert branch label)
      else GitLabeler.AllLabels.loop tags result

/-- Go `(*GitLabeler).AllLabels()`; the `nil` map of the error case is the
empty map. -/
def GitLabeler.AllLabels {σ : Type} (gl : GitLabeler σ) (s : σ) : σ × LabelMap × Error :=
  match gl.listTags s with
  | (s1, .error err) => (s1, ∅, some err)
  | (s1, .ok tags) => (s1, GitLabeler.AllLabels.loop tags ∅, none)

/-- Does the tag decode, by `ParseTag`, to the branch `b`. -/
def decodesTo (b : String) (tag : String) : Bool :=
  (ParseTag tag).2.2 && (ParseTag tag).2.1 == b

/-! ### What `listTags` does with the output of the command -/

/-- Go `unicode.IsSpace(r)`: the Unicode white space characters. -/
def unicode.IsSpace (c : Char) : Bool :=
  let n := c.toNat
  (9 ≤ n && n ≤ 13) || n == 32 || n == 133 || n == 160 || n == 5760 ||
    (8192 ≤ n && n ≤ 8202) || n == 8232 || n == 8233 || n == 8239 || n == 8287 ||
    n == 12288

/-- Go `strings.TrimSpace(s)`: `s` without its leading and trailing white
space. -/
def strings.TrimSpace (s : String) : String :=
  ⟨((s.data.dropWhile unicode.IsSpace).reverse.dropWhile unicode.IsSpace).reverse⟩

/-- The scan of `strings.Split` for a non-empty separator: `skip` characters of
a separator just found are still to be passed over, `piece` holds, last
character first, the piece collected so far. -/
def strings.Split.go (sep : List Char) : List Char → Nat → List Char → List (List Char)
  | [], _, piece => [piece.reverse]
  | _ :: xs, skip + 1, piece => strings.Split.go sep xs skip piece
  | x :: xs, 0, piece =>
    if sep.isPrefixOf (x :: xs) then
      piece.reverse :: strings.Split.go sep xs (sep.length - 1) []
    else strings.Split.go sep xs 0 (x :: piece)

/-- Go `strings.Split(s, sep)`: the pieces of `s` between the occurrences of
`sep`; for an empty `sep` the characters of `s`. -/
def strings.Split (s sep : String) : List String :=
  if sep = "" then s.data.map String.singleton
  else (strings.Split.go sep.data s.data 0 []).map String.mk

/-- The part of `(*GitLabeler).listTags()` after the command has succeeded:
the output is trimmed, an empty rest gives no tag at all, any other rest is
split on newlines. -/
def GitLabeler.listTags.parse (out : String) : List String :=
  let raw := strings.TrimSpace out
  if raw = "" then [] else strings.Split raw "\n"

/-! ### The repository as a set of tag names -/

/-- Does the list `p` occur in the list `s` as a run of consecutive
characters. -/
def git.hasInfix (p : List Char) : List Char → Bool
  | [] => p.isEmpty
  | x :: xs => p.isPrefixOf (x :: xs) || git.hasInfix p xs

/-- The pieces of a reference name between its slashes. -/
def git.components : List Char → List (List Char)
  | [] => [[]]
  | x :: xs =>
    if x = '/' then [] :: git.components xs
    else
      match git.components xs with
      | [] => [[x]]
      | c :: cs => (x :: c) :: cs

/-- The rules of `git check-ref-format` for a tag name, with the rule of
`git tag` that a name does not begin with a dash: no component is empty, begins
with a dot or ends in `.lock`; no `..`, no `@{`, no ASCII control character,
space, `~`, `^`, `:`, `?`, `*`, `[` or backslash; the name does not end with a
dot and is not `@`. -/
def git.validTagName (name : String) : Bool :=
  (git.components name.data).all
      (fun c => !c.isEmpty && c.head? != some '.' && !(".lock".data.isSuffixOf c)) &&
    !git.hasInfix "..".data name.data &&
    !git.hasInfix "@\x7b".data name.data &&
    name.data.all
      (fun c => 32 < c.toNat && c.toNat != 127 &&
        !(['~', '^', ':', '?', '*', '[', '\\'].contains c)) &&
    name.data.getLast? != some '.' &&
    name != "@" &&
    name.data.head? != some '-'

/-- Two reference names are in conflict when one is a directory on the path of
the other: git keeps `a` and `a/b` apart. -/
def git.conflicts (a b : String) : Bool :=
  strings.HasPrefix b (a ++ "/") || strings.HasPrefix a (b ++ "/")

/-- The order in which git lists reference names: byte-wise, which on UTF-8
text is the order of the code points. -/
def git.refLe : List Char → List Char → Bool
  | [], _ => true
  | _ :: _, [] => false
  | a :: as, b :: bs =>
    if a.toNat < b.toNat then true
    else if b.toNat < a.toNat then false
    else git.refLe as bs

/-- The tag names as git lists them: sorted. -/
def git.sortTags (tags : List String) : List String :=
  tags.insertionSort (fun a b => git.refLe a.data b.data = true)

/-- A repository as far as the labeler sees it: the set of its tag names, held
as a duplicate-free list, and the tag names of the remote `origin` when one is
configured. -/
structure Repo where
  tags : List String
  remote : Option (List String)

/-- The output of `git tag -l cindy/*`: the tag names that begin with `cindy/`
(the star of the pattern also matches slashes), sorted, one to a line. -/
def Repo.tagListOutput (r : Repo) : String :=
  ⟨(git.sortTags (r.tags.filter (fun t => strings.HasPrefix t TagPrefix))).flatMap
    (fun t => t.data ++ ['\n'])⟩

/-- The listing that `listTags` reads from the repository. -/
def Repo.listing (r : Repo) : List String :=
  GitLabeler.listTags.parse r.tagListOutput

/-- The labeler on a repository given as a set of tag names.  Listing answers
what `listTags` reads from the output of the command; deleting removes the tag
and fails when it does not exist; creating adds the tag and fails when the name
is not a valid tag name, when the tag exists already and when the name is in
conflict with an existing tag. -/
def Repo.labeler : GitLabeler Repo where
  tagList r := (r, .ok r.listing)
  tagDelete r tag :=
    if tag ∈ r.tags then ({ r with tags := r.tags.filter (fun t => t ≠ tag) }, none)
    else (r, some ("error: tag " ++ tag ++ " not found."))
  tagCreate r tag :=
    if !git.validTagName tag then (r, some ("fatal: " ++ tag ++ " is not a valid tag name."))
    else if tag ∈ r.tags then (r, some ("fatal: tag " ++ tag ++ " already exists"))
    else if r.tags.any (git.conflicts tag) then
      (r, some ("fatal: cannot lock ref refs/tags/" ++ tag))
    else ({ r with tags := r.tags ++ [tag] }, none)
  remoteGetUrl r := (r, r.remote.isSome)
  push r tag :=
    match r.remote with
    | none => (r, some "fatal: origin does not appear to be a git repository")
    | some ts => ({ r with remote := some (if tag ∈ ts then ts else ts ++ [tag]) }, none)
  pushDelete r tag :=
    match r.remote with
    | none => (r, some "fatal: origin does not appear to be a git repository")
    | some ts =>
      if tag ∈ ts then ({ r with remote := some (ts.filter (fun t => t ≠ tag)) }, none)
      else (r, some ("error: unable to delete " ++ tag ++ ": remote ref does not exist"))

/-- The labeler on a repository whose `git tag tag HEAD` refuses the tag names
selected by `refused` (a name git rejects, a name in conflict with an existing
reference, a failing disk) and otherwise behaves as `Repo.labeler`. -/
def Repo.labelerRefusing (refused : String → Bool) : GitLabeler Repo where
  tagList := Repo.labeler.tagList
  tagDelete := Repo.labeler.tagDelete
  tagCreate r tag :=
    if refused tag then (r, some ("fatal: cannot create tag " ++ tag))
    else Repo.labeler.tagCreate r tag
  remoteGetUrl := Repo.labeler.remoteGetUrl
  push := Repo.labeler.push
  pushDelete := Repo.labeler.pushDelete

/-- The name holds no white space character. -/
def noSpace (t : String) : Bool :=
  t.data.all (fun c => !unicode.IsSpace c)

/-! ### The collaborator as a script of outcomes -/

/-- One call of the version-control collaborator. -/
inductive GitCall where
  | tagList
  | tagDelete (tag : String)
  | tagCreate (tag : String)
  | remoteGetUrl
  | push (tag : String)
  | pushDelete (tag : String)
  deriving DecidableEq, Repr

/-- How each collaborator call turns out: the listing or its error, for every
tag whether its local deletion and its local creation fail (`some out`) or
succeed (`none`), whether a remote exists, and for every tag whether its push
and its remote deletion fail. -/
structure Script where
  list : Except String (List String)
  deleteFails : String → Option String
  createFails : String → Option String
  remoteExists : Bool
  pushFails : String → Option String
  pushDeleteFails : String → Option String

/-- The labeler whose commands answer as the script says; its state is the log
of the calls made so far, oldest first. -/
def Script.labeler (o : Script) : GitLabeler (List GitCall) where
  tagList log := (log ++ [GitCall.tagList], o.list)
  tagDelete log tag := (log ++ [GitCall.tagDelete tag], o.deleteFails tag)
  tagCreate log tag := (log ++ [GitCall.tagCreate tag], o.createFails tag)
  remoteGetUrl log := (log ++ [GitCall.remoteGetUrl], o.remoteExists)
  push log tag := (log ++ [GitCall.push tag], o.pushFails tag)
  pushDelete log tag := (log ++ [GitCall.pushDelete tag], o.pushDeleteFails tag)

/-! ## Reference definitions taken from the specification -/

/-- The protocol table as the specification spells it out: the sixteen legal
(from, to) pairs. -/
def protocolTable : List (Label × Label) :=
  [ (Ready, Analyzing),
    (Analyzing, Approved), (Analyzing, Rejected), (Analyzing, HumanReview),
    (Analyzing, Blocked), (Analyzing, RevisionRequested),
    (Approved, Deploying), (Approved, Blocked),
    (Blocked, Approved),
    (Deploying, Deployed), (Deploying, Rollback),
    (HumanReview, Approved), (HumanReview, Rejected), (HumanReview, RevisionRequested),
    (RevisionRequested, Ready),
    (Deployed, Rollback) ]

/-- The labels registered as keys of the transition table. -/
def registeredKeys : List Label :=
  validTransitionsEntries.map Prod.fst

/-- The violations one schema change contributes according to the
specification: its removed fields first, then its modified fields, each in
list order and each carrying the subject of the change.  The two rule texts
are the string constants of `manifest.go`. -/
def specViolationsOf (sc : SchemaChange) : List SchemaViolation :=
  sc.FieldsRemoved.map
      (fun f => { Subject := sc.Subject, Field := f,
                  Rule := "field removal not allowed (deprecate instead)" })
    ++ sc.FieldsModified.map
      (fun f => { Subject := sc.Subject, Field := f,
                  Rule := "field type modification not allowed (add new field instead)" })

/-- The validator as the specification describes it: the concatenation of the
per-change violations in manifest order. -/
def specValidate (m : Manifest) : List SchemaViolation :=
  m.SchemaChanges.flatMap specViolationsOf

/-- The glossary of the specification: every vocabulary label with its short
name, in enumeration order. -/
def glossaryShortNames : List (Label × String) :=
  [ (Ready, "ready"), (Analyzing, "analyzing"), (Approved, "approved"),
    (Blocked, "blocked"), (Deploying, "deploying"), (Deployed, "deployed"),
    (Rejected, "rejected"), (Rollback, "rollback"), (HumanReview, "human-review"),
    (RevisionRequested, "revision-requested") ]

/-- The step relation of the state machine: one legal transition. -/
def Step (a b : Label) : Prop :=
  CanTransition a b = true

/-- Is `b` reached from `a` by at most `n` legal transitions, following the
destination lists of the table. -/
def reachWithin : Nat → Label → Label → Bool
  | 0, a, b => a == b
  | n + 1, a, b => a == b || (ValidTransitionsFrom a).any (fun c => reachWithin n c b)

/-! ## Transition table -/

theorem canTransition_loop_iff (dest : Label) (ts : List Label) :
    CanTransition.loop dest ts = true ↔ dest ∈ ts := by
  induction ts with
  | nil => simp [CanTransition.loop]
  | cons t ts ih =>
    by_cases h : t = dest
    · simp [CanTransition.loop, h]
    · have h2 : ¬ dest = t := fun e => h e.symm
      simp [CanTransition.loop, h, h2, ih]

theorem canTransition_iff_mem (frm dest : Label) :
    CanTransition frm dest = true ↔ dest ∈ ValidTransitionsFrom frm := by
  unfold CanTransition ValidTransitionsFrom
  cases validTransitions frm with
  | none => simp
  | some ts => simp [canTransition_loop_iff]

theorem lookup_eq_none_of_not_mem {α β : Type} [BEq α] [LawfulBEq α]
    (k : α) (es : List (α × β)) (h : k ∉ es.map Prod.fst) : es.lookup k = none := by
  induction es with
  | nil => rfl
  | cons e es ih =>
    obtain ⟨k2, v2⟩ := e
    simp only [List.map_cons, List.mem_cons, not_or] at h
    have hne : (k == k2) = false := by simpa using h.1
    simp [List.lookup, hne, ih h.2]

theorem lookup_eq_some_iff_mem {α β : Type} [BEq α] [LawfulBEq α]
    (k : α) (v : β) (es : List (α × β)) (hnd : (es.map Prod.fst).Nodup) :
    es.lookup k = some v ↔ (k, v) ∈ es := by
  induction es with
  | nil => simp
  | cons e es ih =>
    obtain ⟨k2, v2⟩ := e
    simp only [List.map_cons, List.nodup_cons] at hnd
    by_cases hk : k = k2
    · subst hk
      have hnot : ∀ w, (k, w) ∉ es := fun w hw => hnd.1 (List.mem_map_of_mem Prod.fst hw)
      simp [List.lookup, hnot, eq_comm]
    · have hne : (k == k2) = false := by simpa using hk
      simp [List.lookup, hne, ih hnd.2, hk]

theorem validTransitionsEntries_nodup : (validTransitionsEntries.map Prod.fst).Nodup := by
  decide

theorem validTransitionsFrom_mem_iff (frm dest : Label) :
    dest ∈ ValidTransitionsFrom frm ↔
      ∃ ts, (frm, ts) ∈ validTransitionsEntries ∧ dest ∈ ts := by
  unfold ValidTransitionsFrom validTransitions
  constructor
  · intro h
    cases hl : validTransitionsEntries.lookup frm with
    | none => simp [hl] at h
    | some ts =>
      rw [hl] at h
      exact ⟨ts, (lookup_eq_some_iff_mem frm ts _ validTransitionsEntries_nodup).1 hl, h⟩
  · rintro ⟨ts, hmem, hd⟩
    rw [(lookup_eq_some_iff_mem frm ts _ validTransitionsEntries_nodup).2 hmem]
    exact hd

theorem protocolTable_eq :
    validTransitionsEntries.flatMap (fun e => e.2.map (fun t => (e.1, t))) = protocolTable := by
  decide

theorem canTransition_iff_protocolTable (frm dest : Label) :
    CanTransition frm dest = true ↔ (frm, dest) ∈ protocolTable := by
  rw [canTransition_iff_mem, validTransitionsFrom_mem_iff, ← protocolTable_eq]
  simp only [List.mem_flatMap, List.mem_map, Prod.mk.injEq]
  constructor
  · rintro ⟨ts, hmem, hd⟩
    exact ⟨(frm, ts), hmem, dest, hd, rfl, rfl⟩
  · rintro ⟨⟨k, ts⟩, hmem, t, ht, hk, hdt⟩
    simp only at hk hdt ht
    subst hk hdt
    exact ⟨ts, hmem, ht⟩

theorem canTransition_false_of_unregistered (frm dest : Label)
    (h : frm ∉ registeredKeys) : CanTransition frm dest = false := by
  unfold CanTransition validTransitions
  rw [lookup_eq_none_of_not_mem frm validTransitionsEntries h]

/-- C3: `CanTransition` implements exactly the protocol table.  For arbitrary
strings `frm` and `dest`, `CanTransition frm dest` is true exactly when the
pair is one of the sixteen pairs of the table; a `frm` that is not one of the
eight registered keys yields false for every `dest`, in particular `Rejected`,
`Rollback` and the unknown label `cindy:unknown`. -/
theorem C3_canTransition_protocol (frm dest : Label) :
    (CanTransition frm dest = true ↔ (frm, dest) ∈ protocolTable) ∧
    protocolTable.length = 16 ∧
    registeredKeys =
      [Ready, Analyzing, Approved, Blocked, Deploying, HumanReview,
       RevisionRequested, Deployed] ∧
    (frm ∉ registeredKeys → CanTransition frm dest = false) ∧
    CanTransition Rejected dest = false ∧
    CanTransition Rollback dest = false ∧
    CanTransition "cindy:unknown" dest = false :=
  ⟨canTransition_iff_protocolTable frm dest, by decide, by decide,
   canTransition_false_of_unregistered frm dest,
   canTransition_false_of_unregistered _ dest (by decide),
   canTransition_false_of_unregistered _ dest (by decide),
   canTransition_false_of_unregistered _ dest (by decide)⟩

/-- C3 at a concrete input: the unregistered label `cindy:unknown` cannot move
to `Ready`, while `Ready` can move to `Analyzing`. -/
theorem C3_canTransition_protocol_witness :
    CanTransition "cindy:unknown" Ready = false ∧
    (CanTransition Ready Analyzing = true ↔ (Ready, Analyzing) ∈ protocolTable) :=
  ⟨(C3_canTransition_protocol "cindy:unknown" Ready).2.2.2.1 (by decide),
   (C3_canTransition_protocol Ready Analyzing).1⟩

/-- C4: `CanTransition` and `ValidTransitionsFrom` agree.  For every pair of
labels, `CanTransition frm dest` is true exactly when `dest` occurs in
`ValidTransitionsFrom frm`, and `ValidTransitionsFrom frm` is empty when `frm`
is not a registered key of the table. -/
theorem C4_canTransition_agrees_validTransitionsFrom (frm dest : Label) :
    (CanTransition frm dest = true ↔ dest ∈ ValidTransitionsFrom frm) ∧
    (frm ∉ registeredKeys → ValidTransitionsFrom frm = []) := by
  refine ⟨canTransition_iff_mem frm dest, fun h => ?_⟩
  unfold ValidTransitionsFrom validTransitions
  rw [lookup_eq_none_of_not_mem frm validTransitionsEntries h]
  rfl

/-- C4 at concrete inputs: the terminal label `Rollback` and an unknown label
have no destinations. -/
theorem C4_canTransition_agrees_validTransitionsFrom_witness :
    ValidTransitionsFrom Rollback = [] ∧ ValidTransitionsFrom "nonsense" = [] :=
  ⟨(C4_canTransition_agrees_validTransitionsFrom Rollback Ready).2 (by decide),
   (C4_canTransition_agrees_validTransitionsFrom "nonsense" Ready).2 (by decide)⟩

theorem isTerminal_iff_nil (l : Label) :
    IsTerminal l = true ↔ ValidTransitionsFrom l = [] := by
  unfold IsTerminal ValidTransitionsFrom
  simp

/-- C5: `IsTerminal` characterises the labels without outgoing transitions.
For every string `l`, `IsTerminal l` is true exactly when no `dest` has
`CanTransition l dest = true`, which is exactly when the destination list of
`l` is absent or empty. -/
theorem C5_isTerminal_iff_no_transition (l : Label) :
    (IsTerminal l = true ↔ ¬ ∃ dest, CanTransition l dest = true) ∧
    (IsTerminal l = true ↔ validTransitions l = none ∨ validTransitions l = some []) := by
  constructor
  · rw [isTerminal_iff_nil]
    constructor
    · rintro h ⟨dest, hd⟩
      rw [canTransition_iff_mem, h] at hd
      simp at hd
    · intro h
      cases hts : ValidTransitionsFrom l with
      | nil => rfl
      | cons t ts =>
        exact absurd ⟨t, (canTransition_iff_mem l t).2 (by simp [hts])⟩ h
  · unfold IsTerminal
    cases validTransitions l with
    | none => simp
    | some ts => cases ts <;> simp

/-- C6: among the labels of `AllLabels`, exactly `Rejected` and `Rollback` are
terminal; the other eight, in particular `Ready` and `Deployed`, are not. -/
theorem C6_terminal_labels :
    (∀ l ∈ AllLabels, (IsTerminal l = true ↔ (l = Rejected ∨ l = Rollback))) ∧
    AllLabels.filter IsTerminal = [Rejected, Rollback] ∧
    AllLabels.filter (fun l => !IsTerminal l) =
      [Ready, Analyzing, Approved, Blocked, Deploying, Deployed, HumanReview,
       RevisionRequested] ∧
    IsTerminal Rejected = true ∧ IsTerminal Rollback = true ∧
    IsTerminal Ready = false ∧ IsTerminal Deployed = false ∧
    AllLabels.length = 10 := by
  decide

/-! ## Go string primitives: basic facts -/

theorem hasPrefix_iff (s p : String) :
    strings.HasPrefix s p = true ↔ ∃ r : String, s = p ++ r := by
  unfold strings.HasPrefix
  rw [List.isPrefixOf_iff_prefix]
  constructor
  · rintro ⟨t, ht⟩
    exact ⟨⟨t⟩, String.ext (by simp [String.data_append, ht])⟩
  · rintro ⟨r, rfl⟩
    exact ⟨r.data, by simp [String.data_append]⟩

theorem hasPrefix_append (p r : String) : strings.HasPrefix (p ++ r) p = true :=
  (hasPrefix_iff _ _).2 ⟨r, rfl⟩

theorem trimPrefix_append (p r : String) : strings.TrimPrefix (p ++ r) p = r := by
  unfold strings.TrimPrefix
  rw [if_pos (hasPrefix_append p r)]
  exact String.ext (by simp [String.data_append])

theorem eq_append_trimPrefix (s p : String) (h : strings.HasPrefix s p = true) :
    s = p ++ strings.TrimPrefix s p := by
  obtain ⟨r, rfl⟩ := (hasPrefix_iff s p).1 h
  rw [trimPrefix_append]

/-! ## Tag codec -/

/-- A slash-free segment followed by a slash is located uniquely at the front
of a list: if `y ++ "/"` begins `x ++ "/" ++ b` and neither `x` nor `y`
contains a slash, then `y = x`. -/
theorem segment_unique (x y b : List Char) (hx : '/' ∉ x) (hy : '/' ∉ y)
    (h : (y ++ ['/']) <+: (x ++ '/' :: b)) : y = x := by
  induction y generalizing x with
  | nil =>
    cases x with
    | nil => rfl
    | cons c x =>
      simp only [List.nil_append, List.cons_append, List.cons_prefix_cons] at h
      exact absurd (List.mem_cons.2 (Or.inl h.1)) hx
  | cons d y ih =>
    cases x with
    | nil =>
      simp only [List.nil_append, List.cons_append, List.cons_prefix_cons] at h
      exact absurd (List.mem_cons.2 (Or.inl h.1.symm)) hy
    | cons c x =>
      simp only [List.cons_append, List.cons_prefix_cons] at h
      simp only [List.mem_cons, not_or] at hx hy
      rw [h.1, ih x hx.2 hy.2 h.2]

theorem shortLabel_no_slash : ∀ l ∈ AllLabels, '/' ∉ (ShortLabel l).data := by
  decide

theorem shortLabel_injOn :
    ∀ l ∈ AllLabels, ∀ k ∈ AllLabels, ShortLabel k = ShortLabel l → k = l := by
  decide

theorem slash_data : ("/" : String).data = ['/'] := rfl

/-- Among the vocabulary labels only `l` itself has its short form plus slash
at the front of `ShortLabel l ++ "/" ++ b`. -/
theorem hasPrefix_short_unique (l k : Label) (b : String)
    (hl : l ∈ AllLabels) (hk : k ∈ AllLabels)
    (h : strings.HasPrefix (ShortLabel l ++ "/" ++ b) (ShortLabel k ++ "/") = true) :
    k = l := by
  unfold strings.HasPrefix at h
  rw [List.isPrefixOf_iff_prefix] at h
  simp only [String.data_append, slash_data, List.append_assoc, List.singleton_append] at h
  have hdata := segment_unique _ _ _ (shortLabel_no_slash l hl) (shortLabel_no_slash k hk) h
  exact shortLabel_injOn l hl k hk (String.ext hdata)

/-- The loop returns the label `l` and the remainder `b` when `l` is the only
label of the list whose short form plus slash begins `rest`. -/
theorem parseTag_loop_of_unique (rest : String) (l : Label) (b : String)
    (ls : List Label) (hl : l ∈ ls) (hrest : rest = ShortLabel l ++ "/" ++ b)
    (hb : b ≠ "")
    (huniq : ∀ k ∈ ls, strings.HasPrefix rest (ShortLabel k ++ "/") = true → k = l) :
    ParseTag.loop rest ls = (l, b, true) := by
  induction ls with
  | nil => simp at hl
  | cons k ls ih =>
    unfold ParseTag.loop
    by_cases hp : strings.HasPrefix rest (ShortLabel k ++ "/") = true
    · have hkl : k = l := huniq k (List.mem_cons_self _ _) hp
      subst hkl
      have htrim : strings.TrimPrefix rest (ShortLabel k ++ "/") = b := by
        rw [hrest]; exact trimPrefix_append _ _
      simp only [hp, htrim, if_true, if_pos hb]
    · have hkl : l ≠ k := by
        intro e
        subst e
        exact hp (by rw [hrest]; exact hasPrefix_append _ _)
      have hmem : l ∈ ls := by
        rcases List.mem_cons.1 hl with h | h
        · exact absurd h hkl
        · exact h
      simp only [hp, Bool.false_eq_true, if_false]
      exact ih hmem (fun k2 hk2 => huniq k2 (List.mem_cons_of_mem _ hk2))

/-- Whatever the loop accepts is a label of the list, with a non-empty branch,
and `rest` is the label's short form, a slash and the branch. -/
theorem parseTag_loop_sound (rest : String) (ls : List Label) (l : Label) (b : String)
    (h : ParseTag.loop rest ls = (l, b, true)) :
    l ∈ ls ∧ b ≠ "" ∧ rest = ShortLabel l ++ "/" ++ b := by
  induction ls with
  | nil => simp [ParseTag.loop] at h
  | cons k ls ih =>
    unfold ParseTag.loop at h
    by_cases hp : strings.HasPrefix rest (ShortLabel k ++ "/") = true
    · by_cases hbr : strings.TrimPrefix rest (ShortLabel k ++ "/") ≠ ""
      · simp only [hp, if_true, if_pos hbr, Prod.mk.injEq, and_true] at h
        obtain ⟨h1, h2⟩ := h
        subst h1
        refine ⟨List.mem_cons_self _ _, ?_, ?_⟩
        · rw [← h2]; exact hbr
        · rw [← h2]; exact eq_append_trimPrefix rest _ hp
      · simp only [hp, if_true, if_neg hbr] at h
        obtain ⟨h1, h2, h3⟩ := ih h
        exact ⟨List.mem_cons_of_mem _ h1, h2, h3⟩
    · simp only [hp, Bool.false_eq_true, if_false] at h
      obtain ⟨h1, h2, h3⟩ := ih h
      exact ⟨List.mem_cons_of_mem _ h1, h2, h3⟩

theorem tagName_eq (l : Label) (b : String) :
    TagName l b = TagPrefix ++ (ShortLabel l ++ "/" ++ b) := by
  unfold TagName
  simp only [String.append_assoc]

theorem parseTag_tagName (l : Label) (b : String) (hl : l ∈ AllLabels) (hb : b ≠ "") :
    ParseTag (TagName l b) = (l, b, true) := by
  rw [tagName_eq]
  unfold ParseTag
  simp only [hasPrefix_append, trimPrefix_append, Bool.not_true, Bool.false_eq_true, if_false]
  exact parseTag_loop_of_unique _ l b allLabels hl rfl hb
    (fun k hk h => hasPrefix_short_unique l k b hl hk h)

/-- C1: round trip of the tag codec.  For every label `l` of `AllLabels` and
every non-empty branch `b`, with or without slashes, decoding the encoded tag
gives back `(l, b, true)`. -/
theorem C1_parseTag_tagName_roundtrip (l : Label) (b : String)
    (hl : l ∈ AllLabels) (hb : b ≠ "") :
    ParseTag (TagName l b) = (l, b, true) :=
  parseTag_tagName l b hl hb

/-- C1 at a concrete input: `HumanReview` with a branch holding three slashes. -/
theorem C1_parseTag_tagName_roundtrip_witness :
    HumanReview ∈ AllLabels ∧ ("feature/deep/nested/branch" : String) ≠ "" ∧
    ParseTag (TagName HumanReview "feature/deep/nested/branch") =
      (HumanReview, "feature/deep/nested/branch", true) :=
  ⟨by decide, by decide,
   C1_parseTag_tagName_roundtrip HumanReview "feature/deep/nested/branch"
     (by decide) (by decide)⟩

theorem parseTag_ok_iff (tag : String) :
    (ParseTag tag).2.2 = true ↔
      ∃ l ∈ AllLabels, ∃ b : String, b ≠ "" ∧ tag = TagName l b := by
  constructor
  · intro h
    unfold ParseTag at h
    by_cases hp : strings.HasPrefix tag TagPrefix = true
    · simp only [hp, Bool.not_true, Bool.false_eq_true, if_false] at h
      obtain ⟨l, b, hloop⟩ :
          ∃ l b, ParseTag.loop (strings.TrimPrefix tag TagPrefix) allLabels = (l, b, true) :=
        ⟨_, _, Prod.ext rfl (Prod.ext rfl h)⟩
      obtain ⟨hl, hb, hrest⟩ := parseTag_loop_sound _ _ l b hloop
      refine ⟨l, hl, b, hb, ?_⟩
      rw [tagName_eq, ← hrest]
      exact eq_append_trimPrefix tag TagPrefix hp
    · simp [hp] at h
  · rintro ⟨l, hl, b, hb, rfl⟩
    rw [parseTag_tagName l b hl hb]

theorem parseTag_no_tagPrefix (tag : String)
    (h : strings.HasPrefix tag "cindy/" = false) : (ParseTag tag).2.2 = false := by
  unfold ParseTag
  have h2 : strings.HasPrefix tag TagPrefix = false := h
  simp [h2]

theorem parseTag_unknown_segment (seg b : String) (hseg : '/' ∉ seg.data)
    (hunk : seg ∉ AllLabels.map ShortLabel) :
    (ParseTag ("cindy/" ++ seg ++ "/" ++ b)).2.2 = false := by
  rw [Bool.eq_false_iff]
  intro hok
  obtain ⟨l, hl, b2, _, heq⟩ := (parseTag_ok_iff _).1 hok
  apply hunk
  have hdata := congrArg String.data heq
  unfold TagName TagPrefix at hdata
  simp only [String.data_append, slash_data, List.append_assoc, List.singleton_append,
    List.append_cancel_left_eq] at hdata
  have hpre : ((ShortLabel l).data ++ ['/']) <+: (seg.data ++ '/' :: b.data) := by
    rw [hdata]
    exact ⟨b2.data, by simp⟩
  have hs := segment_unique _ _ _ hseg (shortLabel_no_slash l hl) hpre
  exact List.mem_map.2 ⟨l, hl, String.ext hs⟩

/-- C2: `ParseTag` accepts exactly the valid encodings.  For every string
`tag`, the result has `ok = true` exactly when `tag` is
`"cindy/" ++ ShortLabel l ++ "/" ++ b` for a label `l` of `AllLabels` and a
non-empty `b`.  In particular a tag that does not begin with `cindy/`, a tag
whose slash-free label segment is not a short form of the vocabulary, and a tag
with an empty branch remainder are all rejected. -/
theorem C2_parseTag_accepts_iff (tag : String) :
    ((ParseTag tag).2.2 = true ↔
      ∃ l ∈ AllLabels, ∃ b : String,
        b ≠ "" ∧ tag = "cindy/" ++ ShortLabel l ++ "/" ++ b) ∧
    (strings.HasPrefix tag "cindy/" = false → (ParseTag tag).2.2 = false) ∧
    (∀ seg b : String, '/' ∉ seg.data → seg ∉ AllLabels.map ShortLabel →
      tag = "cindy/" ++ seg ++ "/" ++ b → (ParseTag tag).2.2 = false) ∧
    (∀ l ∈ AllLabels,
      (ParseTag ("cindy/" ++ ShortLabel l ++ "/")).2.2 = false ∧
      (ParseTag ("cindy/" ++ ShortLabel l)).2.2 = false) ∧
    ParseTag "cindy/approved/" = ("", "", false) ∧
    ParseTag "cindy/approved" = ("", "", false) ∧
    ParseTag "v1.0.0" = ("", "", false) ∧
    ParseTag "release/1.0" = ("", "", false) ∧
    ParseTag "cindy/unknown/feature/foo" = ("", "", false) := by
  refine ⟨parseTag_ok_iff tag, parseTag_no_tagPrefix tag, ?_, by decide, by decide,
    by decide, by decide, by decide, by decide⟩
  rintro seg b hseg hunk rfl
  exact parseTag_unknown_segment seg b hseg hunk

/-- C2 at concrete inputs: a foreign tag, an unknown label segment and a valid
encoding. -/
theorem C2_parseTag_accepts_iff_witness :
    (ParseTag "v1.0.0").2.2 = false ∧
    (ParseTag "cindy/unknown/feature/foo").2.2 = false ∧
    (ParseTag "cindy/ready/main").2.2 = true :=
  ⟨(C2_parseTag_accepts_iff "v1.0.0").2.1 (by decide),
   (C2_parseTag_accepts_iff "cindy/unknown/feature/foo").2.2.1 "unknown" "feature/foo"
     (by decide) (by decide) (by decide),
   (C2_parseTag_accepts_iff "cindy/ready/main").1.2
     ⟨Ready, by decide, "main", by decide, by decide⟩⟩

/-! ## Schema safety validator -/

theorem foldl_append_singleton {α β : Type} (f : α → β) (xs : List α) (acc : List β) :
    xs.foldl (fun acc x => acc ++ [f x]) acc = acc ++ xs.map f := by
  induction xs generalizing acc with
  | nil => simp
  | cons x xs ih => simp [List.foldl_cons, ih]

theorem removedLoop_eq (sc : SchemaChange) (acc : List SchemaViolation) :
    ValidateSchemaChanges.removedLoop sc acc =
      acc ++ sc.FieldsRemoved.map
        (fun f => { Subject := sc.Subject, Field := f,
                    Rule := "field removal not allowed (deprecate instead)" }) := by
  unfold ValidateSchemaChanges.removedLoop
  exact foldl_append_singleton _ _ _

theorem modifiedLoop_eq (sc : SchemaChange) (acc : List SchemaViolation) :
    ValidateSchemaChanges.modifiedLoop sc acc =
      acc ++ sc.FieldsModified.map
        (fun f => { Subject := sc.Subject, Field := f,
                    Rule := "field type modification not allowed (add new field instead)" }) := by
  unfold ValidateSchemaChanges.modifiedLoop
  exact foldl_append_singleton _ _ _

theorem validate_outer_eq (scs : List SchemaChange) (acc : List SchemaViolation) :
    scs.foldl
        (fun violations sc =>
          ValidateSchemaChanges.modifiedLoop sc
            (ValidateSchemaChanges.removedLoop sc violations))
        acc
      = acc ++ scs.flatMap specViolationsOf := by
  induction scs generalizing acc with
  | nil => simp
  | cons sc scs ih =>
    rw [List.foldl_cons, ih, modifiedLoop_eq, removedLoop_eq]
    simp [specViolationsOf, List.flatMap_cons, List.append_assoc]

theorem validate_eq_specValidate (m : Manifest) :
    ValidateSchemaChanges m = specValidate m := by
  unfold ValidateSchemaChanges specValidate
  rw [validate_outer_eq]
  rfl

theorem specViolationsOf_eq_nil_iff (sc : SchemaChange) :
    specViolationsOf sc = [] ↔ sc.FieldsRemoved = [] ∧ sc.FieldsModified = [] := by
  unfold specViolationsOf
  simp

theorem validate_eq_nil_iff (m : Manifest) :
    ValidateSchemaChanges m = [] ↔
      ∀ sc ∈ m.SchemaChanges, sc.FieldsRemoved = [] ∧ sc.FieldsModified = [] := by
  rw [validate_eq_specValidate]
  unfold specValidate
  simp only [List.flatMap_eq_nil_iff, specViolationsOf_eq_nil_iff]

theorem specValidate_subject_field (scs : List SchemaChange) :
    (scs.flatMap specViolationsOf).map (fun v => (v.Subject, v.Field)) =
      scs.flatMap
        (fun sc => (sc.FieldsRemoved ++ sc.FieldsModified).map (fun f => (sc.Subject, f))) := by
  induction scs with
  | nil => rfl
  | cons sc scs ih =>
    rw [List.flatMap_cons, List.flatMap_cons, List.map_append, ih]
    simp [specViolationsOf, Function.comp_def]

/-- C7: `ValidateSchemaChanges` equals the reference definition.  For every
manifest the result is the concatenation, over the schema changes in manifest
order, of one violation per removed field followed by one violation per
modified field, each in list order and each carrying the subject of its change
and the field name.  For a single change with removed fields `x`, `y` and
modified field `z` the result has exactly three violations, with fields `x`,
`y`, `z` in that order. -/
theorem C7_validate_reference (m : Manifest) :
    ValidateSchemaChanges m = specValidate m ∧
    (ValidateSchemaChanges m).map (fun v => (v.Subject, v.Field)) =
      m.SchemaChanges.flatMap
        (fun sc => (sc.FieldsRemoved ++ sc.FieldsModified).map (fun f => (sc.Subject, f))) ∧
    (∀ sc : SchemaChange, m.SchemaChanges = [sc] →
      sc.FieldsRemoved = ["x", "y"] → sc.FieldsModified = ["z"] →
      (ValidateSchemaChanges m).length = 3 ∧
      (ValidateSchemaChanges m).map (fun v => v.Field) = ["x", "y", "z"] ∧
      (ValidateSchemaChanges m).map (fun v => v.Subject) =
        [sc.Subject, sc.Subject, sc.Subject]) := by
  refine ⟨validate_eq_specValidate m, ?_, ?_⟩
  · rw [validate_eq_specValidate]
    exact specValidate_subject_field m.SchemaChanges
  · intro sc hsc hr hm
    rw [validate_eq_specValidate]
    unfold specValidate
    rw [hsc]
    simp [specViolationsOf, hr, hm]

/-- C7 at the manifest of the test `TestValidateSchemaChanges_MultipleViolations`. -/
theorem C7_validate_reference_witness :
    (ValidateSchemaChanges
        ⟨0, none, [], [⟨"a.b", SchemaExtension, [], ["x", "y"], ["z"]⟩], [], "", [], ""⟩).map
      (fun v => v.Field) = ["x", "y", "z"] :=
  ((C7_validate_reference
      ⟨0, none, [], [⟨"a.b", SchemaExtension, [], ["x", "y"], ["z"]⟩], [], "", [], ""⟩).2.2
    ⟨"a.b", SchemaExtension, [], ["x", "y"], ["z"]⟩ rfl rfl rfl).2.1

/-- C8: an empty result means schema-safe.  For every manifest the violation
list is empty exactly when every schema change has no removed and no modified
field; in particular a manifest without schema changes has no violation. -/
theorem C8_validate_empty_iff_safe (m : Manifest) :
    (ValidateSchemaChanges m = [] ↔
      ∀ sc ∈ m.SchemaChanges, sc.FieldsRemoved = [] ∧ sc.FieldsModified = []) ∧
    (m.SchemaChanges = [] → ValidateSchemaChanges m = []) := by
  refine ⟨validate_eq_nil_iff m, fun h => ?_⟩
  rw [validate_eq_nil_iff, h]
  simp

/-- C8 at the empty manifest. -/
theorem C8_validate_empty_iff_safe_witness :
    ValidateSchemaChanges ⟨0, none, [], [], [], "", [], ""⟩ = [] :=
  (C8_validate_empty_iff_safe ⟨0, none, [], [], [], "", [], ""⟩).2 rfl

theorem specViolationsOf_congr (a b : SchemaChange)
    (h : a.Subject = b.Subject ∧ a.FieldsRemoved = b.FieldsRemoved ∧
      a.FieldsModified = b.FieldsModified) :
    specViolationsOf a = specViolationsOf b := by
  unfold specViolationsOf
  rw [h.1, h.2.1, h.2.2]

theorem flatMap_specViolationsOf_congr (xs ys : List SchemaChange)
    (h : List.Forall₂
      (fun a b : SchemaChange =>
        a.Subject = b.Subject ∧ a.FieldsRemoved = b.FieldsRemoved ∧
          a.FieldsModified = b.FieldsModified) xs ys) :
    xs.flatMap specViolationsOf = ys.flatMap specViolationsOf := by
  induction h with
  | nil => rfl
  | cons hab _ ih =>
    rw [List.flatMap_cons, List.flatMap_cons, specViolationsOf_congr _ _ hab, ih]

/-- C9: added fields and the declared change type never influence validation.
Two manifests whose schema changes agree pairwise on subject, removed fields
and modified fields have the same violations, whatever their added fields,
their change types and their other manifest fields; a manifest whose changes
carry only added fields has no violation. -/
theorem C9_validate_ignores_added_and_type (m m' : Manifest) :
    (List.Forall₂
        (fun a b : SchemaChange =>
          a.Subject = b.Subject ∧ a.FieldsRemoved = b.FieldsRemoved ∧
            a.FieldsModified = b.FieldsModified)
        m.SchemaChanges m'.SchemaChanges →
      ValidateSchemaChanges m = ValidateSchemaChanges m') ∧
    ((∀ sc ∈ m.SchemaChanges, sc.FieldsRemoved = [] ∧ sc.FieldsModified = []) →
      ValidateSchemaChanges m = []) := by
  refine ⟨fun h => ?_, (validate_eq_nil_iff m).2⟩
  rw [validate_eq_specValidate, validate_eq_specValidate]
  exact flatMap_specViolationsOf_congr _ _ h

/-- C9 at two manifests that differ in added fields, change type and
description, and at the manifest of `TestValidateSchemaChanges_NewSubject`. -/
theorem C9_validate_ignores_added_and_type_witness :
    ValidateSchemaChanges
        ⟨1, none, [], [⟨"s", SchemaExtension, ["a"], ["r"], ["q"]⟩], [], "", [], "one"⟩ =
      ValidateSchemaChanges
        ⟨2, none, [], [⟨"s", SchemaNew, ["b", "c"], ["r"], ["q"]⟩], [], "", [], "two"⟩ ∧
    ValidateSchemaChanges
        ⟨0, none, [],
          [⟨"payments.refund.completed", SchemaNew, ["refund_id", "amount", "reason"], [], []⟩],
          [], "", [], ""⟩ = [] :=
  ⟨(C9_validate_ignores_added_and_type
      ⟨1, none, [], [⟨"s", SchemaExtension, ["a"], ["r"], ["q"]⟩], [], "", [], "one"⟩
      ⟨2, none, [], [⟨"s", SchemaNew, ["b", "c"], ["r"], ["q"]⟩], [], "", [], "two"⟩).1
      (List.Forall₂.cons ⟨rfl, rfl, rfl⟩ List.Forall₂.nil),
   (C9_validate_ignores_added_and_type
      ⟨0, none, [],
        [⟨"payments.refund.completed", SchemaNew, ["refund_id", "amount", "reason"], [], []⟩],
        [], "", [], ""⟩
      ⟨0, none, [], [], [], "", [], ""⟩).2 (by decide)⟩

/-! ## Review gate -/

theorem allResolved_loop_iff (cs : List ReviewComment) :
    AllResolved.loop cs = true ↔ ∀ c ∈ cs, c.Resolved = true := by
  induction cs with
  | nil => simp [AllResolved.loop]
  | cons c cs ih =>
    cases hc : c.Resolved <;> simp [AllResolved.loop, hc, ih]

theorem isBlocking_iff (r : Review) :
    IsBlocking r = true ↔
      r.Verdict = RequestChanges ∧ ∃ c ∈ r.Comments, c.Resolved = false := by
  unfold IsBlocking AllResolved
  rw [Bool.and_eq_true, beq_iff_eq, Bool.not_eq_true', ← Bool.not_eq_true,
    allResolved_loop_iff]
  simp

/-- C10: `IsBlocking` is exactly the blocking predicate.  For every review,
`IsBlocking r` is true exactly when the verdict is `request_changes` and at
least one comment is unresolved; so it is false for the verdicts `approve` and
`comment` whatever the comments, and false for `request_changes` when every
comment is resolved or there is no comment. -/
theorem C10_isBlocking_iff (r : Review) :
    (IsBlocking r = true ↔
      r.Verdict = RequestChanges ∧ ∃ c ∈ r.Comments, c.Resolved = false) ∧
    (r.Verdict = Approve ∨ r.Verdict = Comment → IsBlocking r = false) ∧
    ((∀ c ∈ r.Comments, c.Resolved = true) → IsBlocking r = false) ∧
    (r.Comments = [] → IsBlocking r = false) := by
  refine ⟨isBlocking_iff r, ?_, ?_, ?_⟩
  · intro h
    rw [Bool.eq_false_iff, Ne, isBlocking_iff]
    rintro ⟨hv, _⟩
    rw [hv] at h
    revert h
    decide
  · intro h
    rw [Bool.eq_false_iff, Ne, isBlocking_iff]
    rintro ⟨_, c, hc, hres⟩
    rw [h c hc] at hres
    exact Bool.noConfusion hres
  · intro h
    rw [Bool.eq_false_iff, Ne, isBlocking_iff, h]
    simp

/-- C10 at the three reviews of the test `TestIsBlocking`. -/
theorem C10_isBlocking_iff_witness :
    IsBlocking ⟨"", "", 0, "", RequestChanges, [⟨"1", none, none, "fix", false⟩], ""⟩ = true ∧
    IsBlocking ⟨"", "", 0, "", RequestChanges, [⟨"1", none, none, "fix", true⟩], ""⟩ = false ∧
    IsBlocking ⟨"", "", 0, "", Comment, [⟨"1", none, none, "note", false⟩], ""⟩ = false :=
  ⟨(C10_isBlocking_iff
      ⟨"", "", 0, "", RequestChanges, [⟨"1", none, none, "fix", false⟩], ""⟩).1.2
      ⟨rfl, ⟨"1", none, none, "fix", false⟩, by simp, rfl⟩,
   (C10_isBlocking_iff
      ⟨"", "", 0, "", RequestChanges, [⟨"1", none, none, "fix", true⟩], ""⟩).2.2.1
      (by simp),
   (C10_isBlocking_iff
      ⟨"", "", 0, "", Comment, [⟨"1", none, none, "note", false⟩], ""⟩).2.1
      (Or.inr rfl)⟩

/-- C11: `AllResolved r` is true exactly when every comment of `r` is resolved;
it is true for a review without comments. -/
theorem C11_allResolved_iff (r : Review) :
    (AllResolved r = true ↔ ∀ c ∈ r.Comments, c.Resolved = true) ∧
    (r.Comments = [] → AllResolved r = true) := by
  refine ⟨allResolved_loop_iff r.Comments, fun h => ?_⟩
  unfold AllResolved
  rw [h]
  rfl

/-- C11 at the reviews of `TestAllResolved_Empty` and `TestAllResolved_AllTrue`. -/
theorem C11_allResolved_iff_witness :
    AllResolved ⟨"", "", 0, "", "", [], ""⟩ = true ∧
    AllResolved ⟨"", "", 0, "", "",
      [⟨"1", none, none, "fix this", true⟩, ⟨"2", none, none, "also this", true⟩], ""⟩ = true :=
  ⟨(C11_allResolved_iff ⟨"", "", 0, "", "", [], ""⟩).2 rfl,
   (C11_allResolved_iff ⟨"", "", 0, "", "",
      [⟨"1", none, none, "fix this", true⟩, ⟨"2", none, none, "also this", true⟩], ""⟩).1.2
      (by simp)⟩

theorem unresolved_foldl_eq (cs acc : List ReviewComment) :
    cs.foldl (fun unresolved c => if !c.Resolved then unresolved ++ [c] else unresolved) acc
      = acc ++ cs.filter (fun c => !c.Resolved) := by
  induction cs generalizing acc with
  | nil => simp
  | cons c cs ih =>
    rw [List.foldl_cons, ih]
    cases hc : c.Resolved <;> simp [hc]

theorem unresolvedComments_eq_filter (r : Review) :
    UnresolvedComments r = r.Comments.filter (fun c => !c.Resolved) := by
  unfold UnresolvedComments
  rw [unresolved_foldl_eq]
  rfl

/-- C12: `UnresolvedComments` is a stable filter.  The result is the list of
the comments with `Resolved = false`, unmodified and in their original
relative order: it is a subsequence of `r.Comments` that holds every unresolved
comment and no resolved one. -/
theorem C12_unresolvedComments_stable_filter (r : Review) :
    UnresolvedComments r = r.Comments.filter (fun c => !c.Resolved) ∧
    (UnresolvedComments r).Sublist r.Comments ∧
    (∀ c, c ∈ UnresolvedComments r ↔ c ∈ r.Comments ∧ c.Resolved = false) := by
  rw [unresolvedComments_eq_filter]
  exact ⟨rfl, List.filter_sublist _, fun c => by simp [List.mem_filter]⟩

theorem glossary_shortLabel :
    ∀ p ∈ glossaryShortNames, ShortLabel p.1 = p.2 ∧ p.1 = "cindy:" ++ p.2 := by
  decide

/-- C19: tag layout.  For every vocabulary label with glossary short name `n`
(the label with its `cindy:` prefix stripped) and every branch `b`,
`TagName l b` is `"cindy/" ++ n ++ "/" ++ b`, with `b` passed through as it
is. -/
theorem C19_tagName_layout (b : String) :
    glossaryShortNames.map Prod.fst = AllLabels ∧
    (∀ p ∈ glossaryShortNames,
      ShortLabel p.1 = p.2 ∧ p.1 = "cindy:" ++ p.2 ∧
      TagName p.1 b = "cindy/" ++ p.2 ++ "/" ++ b) ∧
    TagName Approved "feature/foo" = "cindy/approved/feature/foo" ∧
    TagName HumanReview "feature/deep/nested/branch" =
      "cindy/human-review/feature/deep/nested/branch" ∧
    TagName RevisionRequested "feature/add-loyalty-tier" =
      "cindy/revision-requested/feature/add-loyalty-tier" ∧
    TagName Deployed "main" = "cindy/deployed/main" := by
  refine ⟨by decide, fun p hp => ?_, by decide, by decide, by decide, by decide⟩
  obtain ⟨h1, h2⟩ := glossary_shortLabel p hp
  refine ⟨h1, h2, ?_⟩
  unfold TagName TagPrefix
  rw [h1]

/-- C20: the vocabulary is a fixed set of ten symbols.  `AllLabels` is the list
of the ten pairwise distinct labels, and every key and every destination of
the transition table is one of them. -/
theorem C20_vocabulary_closed :
    AllLabels =
      ["cindy:ready", "cindy:analyzing", "cindy:approved", "cindy:blocked",
       "cindy:deploying", "cindy:deployed", "cindy:rejected", "cindy:rollback",
       "cindy:human-review", "cindy:revision-requested"] ∧
    AllLabels.length = 10 ∧
    AllLabels.Nodup ∧
    (∀ e ∈ validTransitionsEntries, e.1 ∈ AllLabels ∧ ∀ t ∈ e.2, t ∈ AllLabels) := by
  decide

/-! ## In-memory label store -/

theorem copyLoop_next (result : MapRef) (order : List (Σ _ : String, Label)) (h : Heap) :
    (MemoryLabeler.AllLabels.loop result order h).next = h.next := by
  unfold MemoryLabeler.AllLabels.loop
  induction order generalizing h with
  | nil => rfl
  | cons e es ih => rw [List.foldl_cons, ih]; rfl

theorem copyLoop_cell_other (result r : MapRef) (order : List (Σ _ : String, Label))
    (h : Heap) (hr : r ≠ result) :
    (MemoryLabeler.AllLabels.loop result order h).cell r = h.cell r := by
  unfold MemoryLabeler.AllLabels.loop
  induction order generalizing h with
  | nil => rfl
  | cons e es ih =>
    rw [List.foldl_cons, ih]
    exact Function.update_noteq hr _ _

theorem copyLoop_cell_result (result : MapRef) (order : List (Σ _ : String, Label))
    (h : Heap) :
    (MemoryLabeler.AllLabels.loop result order h).cell result =
      order.foldl (fun m e => m.insert e.1 e.2) (h.cell result) := by
  unfold MemoryLabeler.AllLabels.loop
  induction order generalizing h with
  | nil => rfl
  | cons e es ih =>
    rw [List.foldl_cons, List.foldl_cons, ih]
    congr 1
    exact Function.update_same _ _ _

/-- Reading a map filled by successive assignments from entries with distinct
keys: the value of the entry with that key, else what the map held before. -/
theorem lookup_foldl_insert (order : List (Σ _ : String, Label)) (m : LabelMap)
    (k : String) (hnd : order.NodupKeys) :
    (order.foldl (fun m e => m.insert e.1 e.2) m).lookup k =
      ((order.dlookup k).orElse fun _ => m.lookup k) := by
  induction order generalizing m with
  | nil => simp
  | cons e es ih =>
    obtain ⟨k2, v2⟩ := e
    rw [List.nodupKeys_cons] at hnd
    rw [List.foldl_cons, ih _ hnd.2]
    by_cases hk : k = k2
    · subst hk
      have hnone : es.dlookup k = none := List.dlookup_eq_none.2 hnd.1
      simp [hnone, AList.lookup_insert]
    · rw [List.dlookup_cons_ne _ _ hk, AList.lookup_insert_ne hk]

theorem make_cell_old (h : Heap) (r : MapRef) (hr : r < h.next) :
    h.make.1.cell r = h.cell r := by
  unfold Heap.make
  exact Function.update_noteq (Nat.ne_of_lt hr) _ _

theorem entriesOf_make_old (h : Heap) (m : Option MapRef)
    (hwf : ∀ r, m = some r → r < h.next) : h.make.1.entriesOf m = h.entriesOf m := by
  cases m with
  | none => rfl
  | some r =>
    show (h.make.1.cell r).entries = (h.cell r).entries
    rw [make_cell_old h r (hwf r rfl)]

theorem allLabels_eq_allLabelsIn (ml : MemoryLabeler) (h : Heap)
    (hwf : ∀ r, ml.labels = some r → r < h.next) :
    ml.AllLabels h = MemoryLabeler.AllLabelsIn (h.entriesOf ml.labels) h := by
  unfold MemoryLabeler.AllLabels
  rw [entriesOf_make_old h _ hwf]

theorem allLabelsIn_fst_next (order : List (Σ _ : String, Label)) (h : Heap) :
    (MemoryLabeler.AllLabelsIn order h).1.next = h.next + 1 := by
  show (MemoryLabeler.AllLabels.loop h.next order h.make.1).next = h.next + 1
  rw [copyLoop_next]
  rfl

theorem allLabelsIn_ref (order : List (Σ _ : String, Label)) (h : Heap) :
    (MemoryLabeler.AllLabelsIn order h).2.1 = h.next := rfl

theorem allLabelsIn_err (order : List (Σ _ : String, Label)) (h : Heap) :
    (MemoryLabeler.AllLabelsIn order h).2.2 = none := rfl

theorem allLabelsIn_cell_old (order : List (Σ _ : String, Label)) (h : Heap)
    (r : MapRef) (hr : r < h.next) :
    (MemoryLabeler.AllLabelsIn order h).1.cell r = h.cell r := by
  show (MemoryLabeler.AllLabels.loop h.next order h.make.1).cell r = h.cell r
  rw [copyLoop_cell_other _ _ _ _ (Nat.ne_of_lt hr)]
  exact make_cell_old h r hr

theorem allLabelsIn_returnedMap (order : List (Σ _ : String, Label)) (h : Heap) :
    MemoryLabeler.returnedMap (MemoryLabeler.AllLabelsIn order h) =
      order.foldl (fun m e => m.insert e.1 e.2) ∅ := by
  show (MemoryLabeler.AllLabels.loop h.next order h.make.1).cell h.next = _
  rw [copyLoop_cell_result]
  congr 1
  exact Function.update_same _ _ _

/-- The returned map reads like the map `m` whenever the loop ran over a
permutation of the entries of `m`. -/
theorem allLabelsIn_lookup (order : List (Σ _ : String, Label)) (h : Heap)
    (m : LabelMap) (hord : order.Perm m.entries) (k : String) :
    (MemoryLabeler.returnedMap (MemoryLabeler.AllLabelsIn order h)).lookup k =
      m.lookup k := by
  have hnd : order.NodupKeys := (List.perm_nodupKeys hord).2 m.nodupKeys
  rw [allLabelsIn_returnedMap, lookup_foldl_insert _ _ _ hnd, AList.lookup_empty]
  have hdl : order.dlookup k = m.lookup k := List.perm_dlookup k hnd m.nodupKeys hord
  rw [hdl]
  cases m.lookup k <;> rfl

theorem allLabelsIn_entries_perm (order : List (Σ _ : String, Label)) (h : Heap)
    (m : LabelMap) (hord : order.Perm m.entries) :
    (MemoryLabeler.returnedMap (MemoryLabeler.AllLabelsIn order h)).entries.Perm m.entries := by
  apply List.lookup_ext (AList.nodupKeys _) m.nodupKeys
  intro k v
  have hl := allLabelsIn_lookup order h m hord k
  unfold AList.lookup at hl
  rw [hl]

theorem keys_count_of_lookup (m : LabelMap) (k : String) (v : Label)
    (h : m.lookup k = some v) : m.keys.count k = 1 := by
  apply List.count_eq_one_of_mem m.keys_nodup
  rw [← AList.mem_keys, ← AList.lookup_isSome, h]
  rfl

theorem newMemoryLabeler_labels (h0 : Heap) :
    (NewMemoryLabeler h0).2.labels = some h0.next := rfl

theorem newMemoryLabeler_cell (h0 : Heap) :
    (NewMemoryLabeler h0).1.cell h0.next = ∅ := by
  show h0.make.1.cell h0.next = ∅
  exact Function.update_same _ _ _

theorem newMemoryLabeler_wf (h0 : Heap) :
    ∀ r, (NewMemoryLabeler h0).2.labels = some r → r < (NewMemoryLabeler h0).1.next := by
  intro r hr
  rw [newMemoryLabeler_labels] at hr
  cases hr
  exact Nat.lt_succ_self h0.next

/-- Two entries of a map, as an association list, for use in the reading of a
map variable whose address is known. -/
theorem lookupVar_some (h : Heap) (r : MapRef) (k : String) :
    h.lookupVar (some r) k = (h.cell r).lookup k := rfl

/-- C13, as the specification words it, fails: the zero value of the exported
type `MemoryLabeler` is a store state, its map is nil, and on it `SetLabel`
does not return but panics on the assignment to the nil map. -/
theorem C13_memoryLabeler_zero_value_counterexample :
    (MemoryLabeler.mk none).SetLabel Heap.empty "feature/test" Approved =
      Run.panics "assignment to entry in nil map" ∧
    ¬ ∃ out, (MemoryLabeler.mk none).SetLabel Heap.empty "feature/test" Approved =
      Run.returns out :=
  ⟨rfl, fun ⟨_, h⟩ => Run.noConfusion h⟩

/-- C13, amended: in-memory store, last write wins with a single entry, for a
store whose map is not nil and was allocated, as in every store made by
`NewMemoryLabeler`.  For every such store, branch `b` and labels `l1`, `l2`:
`SetLabel(b, l1)` and then `SetLabel(b, l2)` both return a nil error; after
them `GetLabel(b)` returns `(l2, nil)`, and the mapping that `AllLabels()`
returns, in whatever order the runtime iterates, holds exactly one entry for
`b`, with value `l2`.  A freshly created store is such a store, stays one under
`SetLabel`, returns the empty label for every branch and an empty mapping. -/
theorem C13_memoryLabeler_last_write_wins (h : Heap) (ml : MemoryLabeler) (r : MapRef)
    (b : String) (l1 l2 : Label) (hml : ml.labels = some r) (hwf : r < h.next) :
    ∃ h1 h2 : Heap,
      ml.SetLabel h b l1 = Run.returns (h1, none) ∧
      ml.SetLabel h1 b l2 = Run.returns (h2, none) ∧
      h2.next = h.next ∧
      ml.GetLabel h2 b = (l2, none) ∧
      (∀ order : List (Σ _ : String, Label),
        order.Perm (h2.entriesOf ml.labels) →
        (MemoryLabeler.AllLabelsIn order h2).2.2 = none ∧
        (MemoryLabeler.returnedMap (MemoryLabeler.AllLabelsIn order h2)).lookup b
          = some l2 ∧
        (MemoryLabeler.returnedMap (MemoryLabeler.AllLabelsIn order h2)).keys.count b
          = 1) ∧
      (ml.AllLabels h2).2.2 = none ∧
      (MemoryLabeler.returnedMap (ml.AllLabels h2)).lookup b = some l2 ∧
      (MemoryLabeler.returnedMap (ml.AllLabels h2)).keys.count b = 1 ∧
      (∀ (h0 : Heap) (b2 : String),
        (NewMemoryLabeler h0).2.labels = some h0.next ∧
        h0.next < (NewMemoryLabeler h0).1.next ∧
        (NewMemoryLabeler h0).2.GetLabel (NewMemoryLabeler h0).1 b2 = ("", none) ∧
        ((NewMemoryLabeler h0).2.AllLabels (NewMemoryLabeler h0).1).2.2 = none ∧
        MemoryLabeler.returnedMap
          ((NewMemoryLabeler h0).2.AllLabels (NewMemoryLabeler h0).1) = ∅) := by
  have hcell : ((h.store r b l1).store r b l2).cell r =
      ((h.cell r).insert b l1).insert b l2 := by
    unfold Heap.store
    simp [Function.update_same]
  have hlook : (((h.store r b l1).store r b l2).cell r).lookup b = some l2 := by
    rw [hcell, AList.lookup_insert]
  have hwf2 : ∀ r2, ml.labels = some r2 → r2 < ((h.store r b l1).store r b l2).next := by
    intro r2 hr2
    rw [hml] at hr2
    cases hr2
    exact hwf
  have hin : ∀ order : List (Σ _ : String, Label),
      order.Perm (((h.store r b l1).store r b l2).entriesOf ml.labels) →
      (MemoryLabeler.returnedMap
        (MemoryLabeler.AllLabelsIn order ((h.store r b l1).store r b l2))).lookup b
        = some l2 := by
    intro order hord
    rw [hml] at hord
    rw [allLabelsIn_lookup order _ _ hord b, hlook]
  have hall := allLabels_eq_allLabelsIn ml ((h.store r b l1).store r b l2) hwf2
  refine ⟨h.store r b l1, (h.store r b l1).store r b l2, ?_, ?_, rfl, ?_, ?_, rfl, ?_, ?_, ?_⟩
  · unfold MemoryLabeler.SetLabel
    rw [hml]
  · unfold MemoryLabeler.SetLabel
    rw [hml]
  · unfold MemoryLabeler.GetLabel Heap.loadVar
    rw [hml, lookupVar_some, hlook]
    rfl
  · intro order hord
    exact ⟨rfl, hin order hord, keys_count_of_lookup _ _ _ (hin order hord)⟩
  · rw [hall]
    exact hin _ (List.Perm.refl _)
  · rw [hall]
    exact keys_count_of_lookup _ _ _ (hin _ (List.Perm.refl _))
  · intro h0 b2
    refine ⟨rfl, Nat.lt_succ_self h0.next, ?_, rfl, ?_⟩
    · unfold MemoryLabeler.GetLabel Heap.loadVar
      rw [newMemoryLabeler_labels, lookupVar_some, newMemoryLabeler_cell]
      rfl
    · rw [allLabels_eq_allLabelsIn _ _ (newMemoryLabeler_wf h0), allLabelsIn_returnedMap,
        newMemoryLabeler_labels]
      show List.foldl _ ∅ ((NewMemoryLabeler h0).1.cell h0.next).entries = ∅
      rw [newMemoryLabeler_cell]
      rfl

/-- C13 on a freshly created store, with the labels of `TestMemoryLabeler`:
both calls return and `GetLabel` reads the second label. -/
theorem C13_memoryLabeler_last_write_wins_witness :
    ∃ h1 h2 : Heap,
      (NewMemoryLabeler Heap.empty).2.SetLabel (NewMemoryLabeler Heap.empty).1
        "feature/test" Approved = Run.returns (h1, none) ∧
      (NewMemoryLabeler Heap.empty).2.SetLabel h1 "feature/test" Deployed
        = Run.returns (h2, none) ∧
      (NewMemoryLabeler Heap.empty).2.GetLabel h2 "feature/test" = (Deployed, none) := by
  obtain ⟨h1, h2, e1, e2, _, e3, _⟩ :=
    C13_memoryLabeler_last_write_wins (NewMemoryLabeler Heap.empty).1
      (NewMemoryLabeler Heap.empty).2 0 "feature/test" Approved Deployed rfl (by decide)
  exact ⟨h1, h2, e1, e2, e3⟩

theorem agreeOff_store (h : Heap) (r : MapRef) (k : String) (v : Label) :
    Heap.agreeOff r h (h.store r k v) :=
  ⟨rfl, fun _ hne => Function.update_noteq hne _ _⟩

theorem agreeOff_delete (h : Heap) (r : MapRef) (k : String) :
    Heap.agreeOff r h (h.delete r k) :=
  ⟨rfl, fun _ hne => Function.update_noteq hne _ _⟩

theorem agreeOff_trans (r : MapRef) (h h2 h3 : Heap)
    (h12 : Heap.agreeOff r h h2) (h23 : Heap.agreeOff r h2 h3) : Heap.agreeOff r h h3 :=
  ⟨h23.1.trans h12.1, fun r2 hne => (h23.2 r2 hne).trans (h12.2 r2 hne)⟩

theorem lookupVar_agreeOff (m : Option MapRef) (r : MapRef) (h h2 : Heap)
    (hr : m ≠ some r) (hag : Heap.agreeOff r h h2) (k : String) :
    h2.lookupVar m k = h.lookupVar m k := by
  cases m with
  | none => rfl
  | some r0 =>
    show (h2.cell r0).lookup k = (h.cell r0).lookup k
    rw [hag.2 r0 (fun e => hr (by rw [e]))]

theorem entriesOf_agreeOff (m : Option MapRef) (r : MapRef) (h h2 : Heap)
    (hr : m ≠ some r) (hag : Heap.agreeOff r h h2) :
    h2.entriesOf m = h.entriesOf m := by
  cases m with
  | none => rfl
  | some r0 =>
    show (h2.cell r0).entries = (h.cell r0).entries
    rw [hag.2 r0 (fun e => hr (by rw [e]))]

/-- Queries on the store do not see a change of another map object. -/
theorem queries_agreeOff (ml : MemoryLabeler) (r : MapRef) (h h2 : Heap)
    (hr : ml.labels ≠ some r) (hwf : ∀ r0, ml.labels = some r0 → r0 < h.next)
    (hag : Heap.agreeOff r h h2) :
    (∀ b, ml.GetLabel h2 b = ml.GetLabel h b) ∧
    (ml.AllLabels h2).2 = (ml.AllLabels h).2 ∧
    MemoryLabeler.returnedMap (ml.AllLabels h2) =
      MemoryLabeler.returnedMap (ml.AllLabels h) := by
  have hwf2 : ∀ r0, ml.labels = some r0 → r0 < h2.next := by
    intro r0 h0
    rw [hag.1]
    exact hwf r0 h0
  refine ⟨fun b => ?_, ?_, ?_⟩
  · unfold MemoryLabeler.GetLabel Heap.loadVar
    rw [lookupVar_agreeOff _ r h h2 hr hag]
  · show (h2.next, (none : Error)) = (h.next, none)
    rw [hag.1]
  · rw [allLabels_eq_allLabelsIn ml h2 hwf2, allLabels_eq_allLabelsIn ml h hwf,
      allLabelsIn_returnedMap, allLabelsIn_returnedMap, entriesOf_agreeOff _ r h h2 hr hag]

theorem entriesOf_perm_lookup (h : Heap) (m : Option MapRef)
    (order : List (Σ _ : String, Label)) (hord : order.Perm (h.entriesOf m)) (h1 : Heap)
    (k : String) :
    (MemoryLabeler.returnedMap (MemoryLabeler.AllLabelsIn order h1)).lookup k =
      h.lookupVar m k := by
  cases m with
  | none =>
    have hnil : order = [] := List.Perm.eq_nil hord
    rw [hnil, allLabelsIn_returnedMap]
    rfl
  | some r => exact allLabelsIn_lookup order h1 (h.cell r) hord k

theorem entriesOf_perm_entries (h : Heap) (m : Option MapRef)
    (order : List (Σ _ : String, Label)) (hord : order.Perm (h.entriesOf m)) (h1 : Heap) :
    (MemoryLabeler.returnedMap (MemoryLabeler.AllLabelsIn order h1)).entries.Perm
      (h.entriesOf m) := by
  cases m with
  | none =>
    have hnil : order = [] := List.Perm.eq_nil hord
    rw [hnil, allLabelsIn_returnedMap]
    exact List.Perm.refl _
  | some r => exact allLabelsIn_entries_perm order h1 (h.cell r) hord

/-- C14: the mapping returned by `AllLabels()` is an independent snapshot.
For a store whose map is nil or was allocated before the call, and whatever
order the runtime iterates in: the call does not fail and returns a map object
other than the store's; the returned map has the store's contents; the call
leaves the store's map unchanged; and after any modification of the returned
map (any sequence of assignments and deletions on it) later `GetLabel` and
`AllLabels` calls on the store give what they give without the modification. -/
theorem C14_allLabels_independent_snapshot (h : Heap) (ml : MemoryLabeler)
    (order : List (Σ _ : String, Label))
    (hwf : ∀ r, ml.labels = some r → r < h.next)
    (hord : order.Perm (h.entriesOf ml.labels)) :
    (MemoryLabeler.AllLabelsIn order h).2.2 = none ∧
    ml.labels ≠ some (MemoryLabeler.AllLabelsIn order h).2.1 ∧
    (∀ k, (MemoryLabeler.returnedMap (MemoryLabeler.AllLabelsIn order h)).lookup k =
      h.lookupVar ml.labels k) ∧
    (MemoryLabeler.returnedMap (MemoryLabeler.AllLabelsIn order h)).entries.Perm
      (h.entriesOf ml.labels) ∧
    (∀ r, ml.labels = some r →
      (MemoryLabeler.AllLabelsIn order h).1.cell r = h.cell r) ∧
    (∀ b, ml.GetLabel (MemoryLabeler.AllLabelsIn order h).1 b = ml.GetLabel h b) ∧
    (∀ h2 : Heap,
      Heap.agreeOff (MemoryLabeler.AllLabelsIn order h).2.1
        (MemoryLabeler.AllLabelsIn order h).1 h2 →
      (∀ b, ml.GetLabel h2 b = ml.GetLabel (MemoryLabeler.AllLabelsIn order h).1 b) ∧
      (ml.AllLabels h2).2 = (ml.AllLabels (MemoryLabeler.AllLabelsIn order h).1).2 ∧
      MemoryLabeler.returnedMap (ml.AllLabels h2) =
        MemoryLabeler.returnedMap (ml.AllLabels (MemoryLabeler.AllLabelsIn order h).1)) ∧
    (∀ (h2 : Heap) (k : String) (v : Label),
      Heap.agreeOff (MemoryLabeler.AllLabelsIn order h).2.1
        (MemoryLabeler.AllLabelsIn order h).1 h2 →
      Heap.agreeOff (MemoryLabeler.AllLabelsIn order h).2.1
          (MemoryLabeler.AllLabelsIn order h).1
          (h2.store (MemoryLabeler.AllLabelsIn order h).2.1 k v) ∧
      Heap.agreeOff (MemoryLabeler.AllLabelsIn order h).2.1
          (MemoryLabeler.AllLabelsIn order h).1
          (h2.delete (MemoryLabeler.AllLabelsIn order h).2.1 k)) ∧
    Heap.agreeOff (MemoryLabeler.AllLabelsIn order h).2.1
      (MemoryLabeler.AllLabelsIn order h).1 (MemoryLabeler.AllLabelsIn order h).1 ∧
    ml.AllLabels h = MemoryLabeler.AllLabelsIn (h.entriesOf ml.labels) h := by
  have hne : ml.labels ≠ some (MemoryLabeler.AllLabelsIn order h).2.1 := by
    intro e
    exact Nat.lt_irrefl _ (hwf _ e)
  have hcell : ∀ r, ml.labels = some r →
      (MemoryLabeler.AllLabelsIn order h).1.cell r = h.cell r :=
    fun r hr => allLabelsIn_cell_old order h r (hwf r hr)
  have hwf1 : ∀ r, ml.labels = some r → r < (MemoryLabeler.AllLabelsIn order h).1.next := by
    intro r hr
    rw [allLabelsIn_fst_next]
    exact Nat.lt_succ_of_lt (hwf r hr)
  have hlookup : ∀ k, (MemoryLabeler.AllLabelsIn order h).1.lookupVar ml.labels k =
      h.lookupVar ml.labels k := by
    intro k
    cases hml : ml.labels with
    | none => rfl
    | some r =>
      show ((MemoryLabeler.AllLabelsIn order h).1.cell r).lookup k = (h.cell r).lookup k
      rw [hcell r hml]
  refine ⟨rfl, hne, fun k => entriesOf_perm_lookup h _ order hord h k,
    entriesOf_perm_entries h _ order hord h, hcell, fun b => ?_, fun h2 hag => ?_,
    fun h2 k v hag => ?_, ⟨rfl, fun _ _ => rfl⟩, allLabels_eq_allLabelsIn ml h hwf⟩
  · unfold MemoryLabeler.GetLabel Heap.loadVar
    rw [hlookup]
  · exact queries_agreeOff ml _ _ h2 hne hwf1 hag
  · exact ⟨agreeOff_trans _ _ _ _ hag (agreeOff_store h2 _ k v),
      agreeOff_trans _ _ _ _ hag (agreeOff_delete h2 _ k)⟩

/-- C14 on the scenario of `TestMemoryLabeler`: the store maps `feature/test`
to `Deployed`; overwriting that key with `Ready` in the returned map leaves
`GetLabel` on the store at `Deployed`. -/
theorem C14_allLabels_independent_snapshot_witness :
    (NewMemoryLabeler Heap.empty).2.GetLabel
      ((MemoryLabeler.AllLabelsIn [⟨"feature/test", Deployed⟩]
          ((NewMemoryLabeler Heap.empty).1.store 0 "feature/test" Deployed)).1.store
        (MemoryLabeler.AllLabelsIn [⟨"feature/test", Deployed⟩]
          ((NewMemoryLabeler Heap.empty).1.store 0 "feature/test" Deployed)).2.1
        "feature/test" Ready)
      "feature/test" = (Deployed, none) :=
  (((C14_allLabels_independent_snapshot
      ((NewMemoryLabeler Heap.empty).1.store 0 "feature/test" Deployed)
      (NewMemoryLabeler Heap.empty).2 [⟨"feature/test", Deployed⟩]
      (fun r hr => by
        have e : r = 0 := (Option.some.inj hr).symm
        rw [e]
        exact Nat.zero_lt_one)
      (by
        show List.Perm _ ((Function.update (Function.update (fun _ => (∅ : LabelMap)) 0 ∅) 0
          ((Function.update (fun _ => (∅ : LabelMap)) 0 ∅ 0).insert
            "feature/test" Deployed)) 0).entries
        simp [Function.update_same])).2.2.2.2.2.2.1
    _ (agreeOff_store _ _ "feature/test" Ready)).1 "feature/test").trans (by
      show (Heap.loadVar _ (some 0) "feature/test", (none : Error)) = (Deployed, none)
      rfl)

/-! ## Label store on git tags -/

theorem getLabel_loop_cons (b tag : String) (tags : List String) :
    GitLabeler.GetLabel.loop b (tag :: tags) =
      if decodesTo b tag then (ParseTag tag).1 else GitLabeler.GetLabel.loop b tags :=
  rfl

theorem allLabels_loop_cons (tag : String) (tags : List String) (m : LabelMap) :
    GitLabeler.AllLabels.loop (tag :: tags) m =
      if (ParseTag tag).2.2 then
        GitLabeler.AllLabels.loop tags (m.insert (ParseTag tag).2.1 (ParseTag tag).1)
      else GitLabeler.AllLabels.loop tags m :=
  rfl

theorem decodesTo_iff (b tag : String) :
    decodesTo b tag = true ↔ ∃ l, ParseTag tag = (l, b, true) := by
  unfold decodesTo
  rw [Bool.and_eq_true, beq_iff_eq]
  constructor
  · rintro ⟨h1, h2⟩
    exact ⟨(ParseTag tag).1, Prod.ext rfl (Prod.ext h2 h1)⟩
  · rintro ⟨l, h⟩
    rw [h]
    exact ⟨rfl, rfl⟩

theorem getLabel_loop_none (b : String) (tags : List String)
    (h : ∀ x ∈ tags, decodesTo b x = false) : GitLabeler.GetLabel.loop b tags = "" := by
  induction tags with
  | nil => rfl
  | cons t ts ih =>
    rw [getLabel_loop_cons, h t (List.mem_cons_self _ _)]
    exact ih (fun x hx => h x (List.mem_cons_of_mem _ hx))

theorem getLabel_loop_first (b : String) (pre post : List String) (t : String)
    (hpre : ∀ x ∈ pre, decodesTo b x = false) (ht : decodesTo b t = true) :
    GitLabeler.GetLabel.loop b (pre ++ t :: post) = (ParseTag t).1 := by
  induction pre with
  | nil =>
    rw [List.nil_append, getLabel_loop_cons, ht]
    rfl
  | cons x xs ih =>
    rw [List.cons_append, getLabel_loop_cons, hpre x (List.mem_cons_self _ _)]
    exact ih (fun y hy => hpre y (List.mem_cons_of_mem _ hy))

theorem listTags_ok {σ : Type} (gl : GitLabeler σ) (s s1 : σ) (tags : List String)
    (h : gl.tagList s = (s1, .ok tags)) : gl.listTags s = (s1, .ok tags) := by
  unfold GitLabeler.listTags
  rw [h]

theorem listTags_error {σ : Type} (gl : GitLabeler σ) (s s1 : σ) (e : String)
    (h : gl.tagList s = (s1, .error e)) :
    gl.listTags s = (s1, .error ("listing tags: " ++ e)) := by
  unfold GitLabeler.listTags
  rw [h]

theorem getLabel_of_listed {σ : Type} (gl : GitLabeler σ) (s s1 : σ) (tags : List String)
    (b : String) (h : gl.tagList s = (s1, .ok tags)) :
    gl.GetLabel s b = (s1, GitLabeler.GetLabel.loop b tags, none) := by
  unfold GitLabeler.GetLabel
  rw [listTags_ok gl s s1 tags h]

theorem tagList_cases {σ : Type} (gl : GitLabeler σ) (s : σ) :
    (∃ s1 tags, gl.tagList s = (s1, .ok tags)) ∨ (∃ s1 e, gl.tagList s = (s1, .error e)) := by
  rcases h : gl.tagList s with ⟨s1, r⟩
  cases r with
  | error e => exact Or.inr ⟨s1, e, rfl⟩
  | ok tags => exact Or.inl ⟨s1, tags, rfl⟩

/-- C16: persistent store lookup.  Whenever the listing succeeds with the
sequence `tags`, `GetLabel b` returns with a nil error the label of the first
listed tag that `ParseTag` decodes to the branch `b`, and the empty label, again
with a nil error, when no listed tag decodes to `b`.  It returns an error
exactly when listing the tags fails. -/
theorem C16_gitLabeler_getLabel {σ : Type} (gl : GitLabeler σ) (s : σ) (b : String) :
    (∀ (s1 : σ) (pre post : List String) (t : String) (l : Label),
      gl.tagList s = (s1, .ok (pre ++ t :: post)) →
      (∀ x ∈ pre, decodesTo b x = false) → ParseTag t = (l, b, true) →
      gl.GetLabel s b = (s1, l, none)) ∧
    (∀ (s1 : σ) (tags : List String),
      gl.tagList s = (s1, .ok tags) → (∀ x ∈ tags, decodesTo b x = false) →
      gl.GetLabel s b = (s1, "", none)) ∧
    ((gl.GetLabel s b).2.2 ≠ none ↔ ∃ s1 e, gl.tagList s = (s1, .error e)) := by
  refine ⟨?_, ?_, ?_⟩
  · intro s1 pre post t l hlist hpre ht
    rw [getLabel_of_listed gl s s1 _ b hlist,
      getLabel_loop_first b pre post t hpre ((decodesTo_iff b t).2 ⟨l, ht⟩), ht]
  · intro s1 tags hlist hnone
    rw [getLabel_of_listed gl s s1 _ b hlist, getLabel_loop_none b tags hnone]
  · rcases tagList_cases gl s with ⟨s1, tags, h⟩ | ⟨s1, e, h⟩
    · rw [getLabel_of_listed gl s s1 _ b h, h]
      simp
    · unfold GitLabeler.GetLabel
      rw [listTags_error gl s s1 e h, h]
      simp

/-- C16 on a repository with two labelled branches and a foreign tag. -/
theorem C16_gitLabeler_getLabel_witness :
    Repo.labeler.GetLabel ⟨["v1.0.0", "cindy/approved/x", "cindy/ready/y"], none⟩ "y" =
      (⟨["v1.0.0", "cindy/approved/x", "cindy/ready/y"], none⟩, Ready, none) ∧
    Repo.labeler.GetLabel ⟨["v1.0.0", "cindy/approved/x", "cindy/ready/y"], none⟩ "z" =
      (⟨["v1.0.0", "cindy/approved/x", "cindy/ready/y"], none⟩, "", none) :=
  ⟨(C16_gitLabeler_getLabel Repo.labeler
      ⟨["v1.0.0", "cindy/approved/x", "cindy/ready/y"], none⟩ "y").1
      _ ["cindy/approved/x"] [] "cindy/ready/y" Ready rfl (by decide) (by decide),
   (C16_gitLabeler_getLabel Repo.labeler
      ⟨["v1.0.0", "cindy/approved/x", "cindy/ready/y"], none⟩ "z").2.1
      _ ["cindy/approved/x", "cindy/ready/y"] rfl (by decide)⟩

/-- Reading the result of the `AllLabels` loop at the branch `b`: every listed
tag that decodes to `b` overwrites what was there. -/
theorem allLabels_loop_lookup (tags : List String) (m : LabelMap) (b : String) :
    (GitLabeler.AllLabels.loop tags m).lookup b =
      tags.foldl (fun acc t => if decodesTo b t then some (ParseTag t).1 else acc)
        (m.lookup b) := by
  induction tags generalizing m with
  | nil => rfl
  | cons t ts ih =>
    rw [allLabels_loop_cons, List.foldl_cons]
    by_cases hok : (ParseTag t).2.2 = true
    · rw [if_pos hok, ih]
      by_cases hb : (ParseTag t).2.1 = b
      · have hd : decodesTo b t = true := by
          unfold decodesTo
          rw [hok, hb]
          simp
        rw [if_pos hd, ← hb, AList.lookup_insert]
      · have hd : decodesTo b t = false := by
          unfold decodesTo
          rw [hok]
          simpa using hb
        have hne : b ≠ (ParseTag t).2.1 := fun e => hb e.symm
        rw [hd, AList.lookup_insert_ne hne]
        rfl
    · have hd : decodesTo b t = false := by
        unfold decodesTo
        simp [hok]
      rw [if_neg hok, ih, hd]
      rfl

theorem overwrite_foldl_some (b : String) (tags : List String) (a : Option Label)
    (l : Label)
    (h : tags.foldl (fun acc t => if decodesTo b t then some (ParseTag t).1 else acc) a
      = some l) :
    a = some l ∨ ∃ t ∈ tags, decodesTo b t = true ∧ (ParseTag t).1 = l := by
  induction tags generalizing a with
  | nil => exact Or.inl h
  | cons t ts ih =>
    rw [List.foldl_cons] at h
    rcases ih _ h with h1 | ⟨t2, ht2, hd2⟩
    · by_cases hd : decodesTo b t = true
      · rw [if_pos hd] at h1
        exact Or.inr ⟨t, List.mem_cons_self _ _, hd, Option.some.inj h1⟩
      · rw [if_neg hd] at h1
        exact Or.inl h1
    · exact Or.inr ⟨t2, List.mem_cons_of_mem _ ht2, hd2⟩

theorem overwrite_foldl_isSome (b : String) (tags : List String) (a : Option Label)
    (h : a.isSome = true ∨ ∃ t ∈ tags, decodesTo b t = true) :
    (tags.foldl (fun acc t => if decodesTo b t then some (ParseTag t).1 else acc) a).isSome
      = true := by
  induction tags generalizing a with
  | nil =>
    rcases h with h | ⟨t, ht, _⟩
    · exact h
    · simp at ht
  | cons t ts ih =>
    rw [List.foldl_cons]
    apply ih
    by_cases hd : decodesTo b t = true
    · left
      rw [if_pos hd]
      rfl
    · rw [if_neg hd]
      rcases h with h | ⟨t2, ht2, hd2⟩
      · exact Or.inl h
      · rcases List.mem_cons.1 ht2 with e | hmem
        · subst e
          exact absurd hd2 hd
        · exact Or.inr ⟨t2, hmem, hd2⟩

theorem allLabels_loop_filter (tags : List String) (m : LabelMap) :
    GitLabeler.AllLabels.loop tags m =
      GitLabeler.AllLabels.loop (tags.filter (fun t => (ParseTag t).2.2)) m := by
  induction tags generalizing m with
  | nil => rfl
  | cons t ts ih =>
    by_cases hok : (ParseTag t).2.2 = true
    · have hf : (t :: ts).filter (fun t => (ParseTag t).2.2) =
          t :: ts.filter (fun t => (ParseTag t).2.2) := by
        simp [List.filter_cons, hok]
      rw [hf, allLabels_loop_cons, allLabels_loop_cons, if_pos hok, if_pos hok, ih]
    · have hf : (t :: ts).filter (fun t => (ParseTag t).2.2) =
          ts.filter (fun t => (ParseTag t).2.2) := by
        simp [List.filter_cons, hok]
      rw [hf, allLabels_loop_cons, if_neg hok, ih]

theorem allLabels_of_listed {σ : Type} (gl : GitLabeler σ) (s s1 : σ) (tags : List String)
    (h : gl.tagList s = (s1, .ok tags)) :
    gl.AllLabels s = (s1, GitLabeler.AllLabels.loop tags ∅, none) := by
  unfold GitLabeler.AllLabels
  rw [listTags_ok gl s s1 tags h]

/-- C18: `AllLabels` of the persistent store skips foreign tags.  Whenever the
listing succeeds with the sequence `tags`, `AllLabels` returns a nil error and
a mapping whose keys are exactly the branches that some listed tag decodes to,
each key mapped to the label of a listed tag that decodes to it; the tags that
`ParseTag` rejects contribute nothing, the result being that of the listing
without them. -/
theorem C18_gitLabeler_allLabels {σ : Type} (gl : GitLabeler σ) (s s1 : σ)
    (tags : List String) (hlist : gl.tagList s = (s1, .ok tags)) :
    (gl.AllLabels s).2.2 = none ∧
    (gl.AllLabels s).1 = s1 ∧
    (∀ b, b ∈ (gl.AllLabels s).2.1.keys ↔ ∃ t ∈ tags, ∃ l, ParseTag t = (l, b, true)) ∧
    (∀ b l, (gl.AllLabels s).2.1.lookup b = some l →
      ∃ t ∈ tags, ParseTag t = (l, b, true)) ∧
    (gl.AllLabels s).2.1 =
      GitLabeler.AllLabels.loop (tags.filter (fun t => (ParseTag t).2.2)) ∅ := by
  rw [allLabels_of_listed gl s s1 tags hlist]
  have hsome : ∀ b l, (GitLabeler.AllLabels.loop tags ∅).lookup b = some l →
      ∃ t ∈ tags, ParseTag t = (l, b, true) := by
    intro b l h
    rw [allLabels_loop_lookup] at h
    rcases overwrite_foldl_some b tags _ l h with h0 | ⟨t, ht, hd, hl⟩
    · rw [AList.lookup_empty] at h0
      exact Option.noConfusion h0
    · obtain ⟨l2, hp⟩ := (decodesTo_iff b t).1 hd
      rw [hp] at hl
      exact ⟨t, ht, by rw [hp, ← hl]⟩
  refine ⟨rfl, rfl, fun b => ?_, hsome, allLabels_loop_filter tags ∅⟩
  show b ∈ (GitLabeler.AllLabels.loop tags ∅).keys ↔ _
  rw [← AList.mem_keys, ← AList.lookup_isSome]
  constructor
  · intro h
    obtain ⟨l, hl⟩ := Option.isSome_iff_exists.1 h
    obtain ⟨t, ht, hp⟩ := hsome b l hl
    exact ⟨t, ht, l, hp⟩
  · rintro ⟨t, ht, l, hp⟩
    rw [allLabels_loop_lookup]
    exact overwrite_foldl_isSome b tags _ (Or.inr ⟨t, ht, (decodesTo_iff b t).2 ⟨l, hp⟩⟩)

/-- C18 on a listing with two labelled branches and a tag with an unknown
label segment. -/
theorem C18_gitLabeler_allLabels_witness :
    (Repo.labeler.AllLabels
        ⟨["cindy/approved/x", "cindy/unknown/w", "cindy/ready/y"], none⟩).2.2 = none ∧
    (Repo.labeler.AllLabels
        ⟨["cindy/approved/x", "cindy/unknown/w", "cindy/ready/y"], none⟩).2.1.keys
      = ["y", "x"] :=
  ⟨(C18_gitLabeler_allLabels Repo.labeler
      ⟨["cindy/approved/x", "cindy/unknown/w", "cindy/ready/y"], none⟩ _
      ["cindy/approved/x", "cindy/ready/y", "cindy/unknown/w"] rfl).1,
   by decide⟩

/-! ### The repository as a set of tag names -/

theorem setLabel_loop_cons {σ : Type} (gl : GitLabeler σ) (b : String) (s : σ)
    (tag : String) (tags : List String) :
    GitLabeler.SetLabel.loop gl b s (tag :: tags) =
      if decodesTo b tag then
        match gl.deleteTag s tag with
        | (s1, some err) => (s1, some ("deleting old tag " ++ tag ++ ": " ++ err))
        | (s1, none) => GitLabeler.SetLabel.loop gl b (gl.pushDeleteTag s1 tag) tags
      else GitLabeler.SetLabel.loop gl b s tags :=
  rfl

theorem decodesTo_hasPrefix (b t : String) (h : decodesTo b t = true) :
    strings.HasPrefix t TagPrefix = true := by
  unfold decodesTo at h
  rw [Bool.and_eq_true] at h
  by_contra hp
  have hfalse : (ParseTag t).2.2 = false := by
    unfold ParseTag
    simp [hp]
  rw [hfalse] at h
  exact Bool.noConfusion h.1

theorem repo_pushDeleteTag_tags (r : Repo) (tag : String) :
    (Repo.labeler.pushDeleteTag r tag).tags = r.tags := by
  obtain ⟨tags, remote⟩ := r
  cases remote with
  | none => rfl
  | some ts =>
    by_cases h : tag ∈ ts
    · simp [GitLabeler.pushDeleteTag, GitLabeler.hasRemote, Repo.labeler, h]
    · simp [GitLabeler.pushDeleteTag, GitLabeler.hasRemote, Repo.labeler, h]

theorem repo_pushTag_tags (r : Repo) (tag : String) :
    (Repo.labeler.pushTag r tag).tags = r.tags := by
  obtain ⟨tags, remote⟩ := r
  cases remote with
  | none => rfl
  | some ts => rfl

theorem repo_deleteTag (r : Repo) (tag : String) (h : tag ∈ r.tags) :
    Repo.labeler.deleteTag r tag =
      ({ r with tags := r.tags.filter (fun t => t ≠ tag) }, none) := by
  unfold GitLabeler.deleteTag Repo.labeler
  simp only [h, if_true]

/-- On a repository the deletion loop succeeds and removes exactly the listed
tags that decode to the branch. -/
theorem repo_setLabel_loop (b : String) (ts : List String) (r : Repo)
    (hnd : ts.Nodup) (hmem : ∀ t ∈ ts, decodesTo b t = true → t ∈ r.tags) :
    (GitLabeler.SetLabel.loop Repo.labeler b r ts).2 = none ∧
    (GitLabeler.SetLabel.loop Repo.labeler b r ts).1.tags =
      r.tags.filter (fun t => !(decodesTo b t && decide (t ∈ ts))) := by
  induction ts generalizing r with
  | nil => simp [GitLabeler.SetLabel.loop]
  | cons t ts ih =>
    rw [List.nodup_cons] at hnd
    rw [setLabel_loop_cons]
    by_cases hd : decodesTo b t = true
    · rw [if_pos hd, repo_deleteTag r t (hmem t (List.mem_cons_self _ _) hd)]
      simp only []
      have hmem2 : ∀ x ∈ ts, decodesTo b x = true →
          x ∈ (Repo.labeler.pushDeleteTag
            { r with tags := r.tags.filter (fun y => y ≠ t) } t).tags := by
        intro x hx hdx
        rw [repo_pushDeleteTag_tags]
        simp only [List.mem_filter, decide_eq_true_eq]
        refine ⟨hmem x (List.mem_cons_of_mem _ hx) hdx, ?_⟩
        intro e
        subst e
        exact hnd.1 hx
      obtain ⟨h1, h2⟩ := ih _ hnd.2 hmem2
      refine ⟨h1, ?_⟩
      rw [h2, repo_pushDeleteTag_tags, List.filter_filter]
      apply List.filter_congr
      intro x _
      by_cases hxt : x = t
      · subst hxt
        simp [hd]
      · simp [hxt]
    · rw [if_neg hd]
      have hmem2 : ∀ x ∈ ts, decodesTo b x = true → x ∈ r.tags :=
        fun x hx hdx => hmem x (List.mem_cons_of_mem _ hx) hdx
      obtain ⟨h1, h2⟩ := ih r hnd.2 hmem2
      refine ⟨h1, ?_⟩
      rw [h2]
      apply List.filter_congr
      intro x _
      by_cases hxt : x = t
      · subst hxt
        simp [hd]
      · simp [hxt]

theorem decodesTo_tagName (l : Label) (b : String) (hl : l ∈ AllLabels) (hb : b ≠ "") :
    decodesTo b (TagName l b) = true :=
  (decodesTo_iff b _).2 ⟨l, parseTag_tagName l b hl hb⟩

theorem getLabel_loop_filter (b : String) (ts : List String) :
    GitLabeler.GetLabel.loop b ts = GitLabeler.GetLabel.loop b (ts.filter (decodesTo b)) := by
  induction ts with
  | nil => rfl
  | cons t ts ih =>
    by_cases hd : decodesTo b t = true
    · rw [List.filter_cons_of_pos hd, getLabel_loop_cons, getLabel_loop_cons, if_pos hd,
        if_pos hd]
    · rw [List.filter_cons_of_neg hd, getLabel_loop_cons, if_neg hd, ih]

theorem overwrite_foldl_filter (b : String) (ts : List String) (a : Option Label) :
    ts.foldl (fun acc t => if decodesTo b t then some (ParseTag t).1 else acc) a =
      (ts.filter (decodesTo b)).foldl
        (fun acc t => if decodesTo b t then some (ParseTag t).1 else acc) a := by
  induction ts generalizing a with
  | nil => rfl
  | cons t ts ih =>
    by_cases hd : decodesTo b t = true
    · rw [List.filter_cons_of_pos hd, List.foldl_cons, List.foldl_cons, ih]
    · rw [List.filter_cons_of_neg hd, List.foldl_cons, if_neg hd, ih]

theorem listing_filter_decodesTo (b : String) (tags : List String) :
    (tags.filter (fun t => strings.HasPrefix t TagPrefix)).filter (decodesTo b) =
      tags.filter (decodesTo b) := by
  rw [List.filter_filter]
  apply List.filter_congr
  intro x _
  by_cases hd : decodesTo b x = true
  · simp [hd, decodesTo_hasPrefix b x hd]
  · simp [hd]

/-! ### What `listTags` reads from the output -/

theorem split_go_consume (t rest piece : List Char) (ht : '\n' ∉ t) :
    strings.Split.go ['\n'] (t ++ rest) 0 piece =
      strings.Split.go ['\n'] rest 0 (t.reverse ++ piece) := by
  induction t generalizing piece with
  | nil => rfl
  | cons x xs ih =>
    simp only [List.mem_cons, not_or] at ht
    have hx : ¬ '\n' = x := ht.1
    have hpre : List.isPrefixOf ['\n'] (x :: (xs ++ rest)) = false := by
      simp [List.isPrefixOf, hx]
    rw [List.cons_append, strings.Split.go, hpre]
    simp only [Bool.false_eq_true, if_false]
    rw [ih _ ht.2]
    simp

theorem split_go_newline (rest piece : List Char) :
    strings.Split.go ['\n'] ('\n' :: rest) 0 piece =
      piece.reverse :: strings.Split.go ['\n'] rest 0 [] := by
  rw [strings.Split.go]
  simp [List.isPrefixOf]

theorem split_go_lines (lines : List (List Char)) (last : List Char)
    (hl : ∀ t ∈ lines, '\n' ∉ t) (hlast : '\n' ∉ last) :
    strings.Split.go ['\n'] (lines.flatMap (fun t => t ++ ['\n']) ++ last) 0 [] =
      lines ++ [last] := by
  induction lines with
  | nil =>
    have h := split_go_consume last [] [] hlast
    simp only [List.append_nil] at h
    simp only [List.flatMap_nil, List.nil_append, h]
    simp [strings.Split.go]
  | cons t ts ih =>
    have ht := hl t (List.mem_cons_self _ _)
    rw [List.flatMap_cons, List.append_assoc, List.append_assoc, split_go_consume _ _ _ ht,
      List.singleton_append, split_go_newline,
      ih (fun u hu => hl u (List.mem_cons_of_mem _ hu))]
    simp

theorem isSpace_newline : unicode.IsSpace '\n' = true := by decide

theorem flatMap_concat_lines (init : List (List Char)) (last : List Char) :
    (init ++ [last]).flatMap (fun t => t ++ ['\n']) =
      (init.flatMap (fun t => t ++ ['\n']) ++ last) ++ ['\n'] := by
  simp [List.flatMap_append]

/-- Lines without white space, each followed by a newline, are read back as
they are. -/
theorem parse_lines (lines : List (List Char)) (hne : ∀ t ∈ lines, t ≠ [])
    (hsp : ∀ t ∈ lines, ∀ c ∈ t, unicode.IsSpace c = false) :
    GitLabeler.listTags.parse ⟨lines.flatMap (fun t => t ++ ['\n'])⟩ =
      lines.map String.mk := by
  have hnl : ∀ t ∈ lines, '\n' ∉ t := by
    intro t ht hmem
    have := hsp t ht _ hmem
    rw [isSpace_newline] at this
    exact Bool.noConfusion this
  rcases List.eq_nil_or_concat lines with h0 | ⟨init, last, hcat⟩
  · subst h0
    rfl
  · rw [List.concat_eq_append] at hcat
    have hlast_mem : last ∈ lines := by rw [hcat]; simp
    have hinit : ∀ t ∈ init, t ∈ lines := fun t ht => by rw [hcat]; simp [ht]
    -- the output begins with a character that is no white space
    have hfront : (lines.flatMap (fun t => t ++ ['\n'])).dropWhile unicode.IsSpace =
        lines.flatMap (fun t => t ++ ['\n']) := by
      cases hlines : lines with
      | nil => rfl
      | cons t ts =>
        have htm : t ∈ lines := by rw [hlines]; exact List.mem_cons_self _ _
        cases ht : t with
        | nil => exact absurd ht (hne t htm)
        | cons c cs =>
          have hc : unicode.IsSpace c = false := hsp t htm c (by rw [ht]; exact List.mem_cons_self _ _)
          simp [List.flatMap_cons, List.dropWhile_cons, hc]
    -- the output ends with the last line and one newline
    have hbody : (lines.flatMap (fun t => t ++ ['\n'])) =
        (init.flatMap (fun t => t ++ ['\n']) ++ last) ++ ['\n'] := by
      rw [hcat, flatMap_concat_lines]
    have hback : List.rdropWhile unicode.IsSpace
        ((init.flatMap (fun t => t ++ ['\n']) ++ last) ++ ['\n']) =
        init.flatMap (fun t => t ++ ['\n']) ++ last := by
      rw [List.rdropWhile_concat_pos _ _ _ isSpace_newline]
      rcases List.eq_nil_or_concat last with hl0 | ⟨l0, x, hl⟩
      · exact absurd hl0 (hne last hlast_mem)
      · rw [List.concat_eq_append] at hl
        have hx : unicode.IsSpace x = false := hsp last hlast_mem x (by rw [hl]; simp)
        rw [hl, ← List.append_assoc]
        exact List.rdropWhile_concat_neg _ _ _ (by rw [hx]; exact Bool.false_ne_true)
    have htrim : strings.TrimSpace ⟨lines.flatMap (fun t => t ++ ['\n'])⟩ =
        ⟨init.flatMap (fun t => t ++ ['\n']) ++ last⟩ := by
      unfold strings.TrimSpace
      simp only []
      rw [hfront, hbody]
      exact congrArg String.mk hback
    have hraw : (⟨init.flatMap (fun t => t ++ ['\n']) ++ last⟩ : String) ≠ "" := by
      intro e
      have hd := congrArg String.data e
      simp only [List.append_eq_nil] at hd
      exact hne last hlast_mem hd.2
    unfold GitLabeler.listTags.parse
    simp only [htrim, if_neg hraw]
    unfold strings.Split
    have hsep : ¬ ("\n" : String) = "" := by decide
    rw [if_neg hsep]
    show (strings.Split.go ['\n'] (init.flatMap (fun t => t ++ ['\n']) ++ last) 0 []).map
      String.mk = lines.map String.mk
    rw [split_go_lines init last (fun t ht => hnl t (hinit t ht)) (hnl last hlast_mem), hcat]

theorem flatMap_data_lines (L : List String) :
    L.flatMap (fun t => t.data ++ ['\n']) =
      (L.map String.data).flatMap (fun t => t ++ ['\n']) := by
  induction L with
  | nil => rfl
  | cons t ts ih => simp [List.flatMap_cons, ih]

theorem noSpace_iff (t : String) :
    noSpace t = true ↔ ∀ c ∈ t.data, unicode.IsSpace c = false := by
  unfold noSpace
  simp [List.all_eq_true]

theorem data_ne_nil_of_hasPrefix (t : String)
    (h : strings.HasPrefix t TagPrefix = true) : t.data ≠ [] := by
  intro e
  have hf : strings.HasPrefix t TagPrefix = false := by
    unfold strings.HasPrefix
    rw [e]
    rfl
  rw [h] at hf
  exact Bool.noConfusion hf

/-- On a repository whose tag names hold no white space, `listTags` reads the
tag names that begin with `cindy/`, sorted. -/
theorem repo_listing_eq (r : Repo) (hsp : ∀ t ∈ r.tags, noSpace t = true) :
    r.listing = git.sortTags (r.tags.filter (fun t => strings.HasPrefix t TagPrefix)) := by
  have hmem : ∀ t ∈ git.sortTags (r.tags.filter (fun t => strings.HasPrefix t TagPrefix)),
      t ∈ r.tags ∧ strings.HasPrefix t TagPrefix = true := by
    intro t ht
    unfold git.sortTags at ht
    rw [List.mem_insertionSort] at ht
    exact List.mem_filter.1 ht
  have hparse := parse_lines
    ((git.sortTags (r.tags.filter (fun t => strings.HasPrefix t TagPrefix))).map String.data)
    (by
      intro d hd
      obtain ⟨t, ht, rfl⟩ := List.mem_map.1 hd
      exact data_ne_nil_of_hasPrefix t (hmem t ht).2)
    (by
      intro d hd
      obtain ⟨t, ht, rfl⟩ := List.mem_map.1 hd
      exact (noSpace_iff t).1 (hsp t (hmem t ht).1))
  unfold Repo.listing Repo.tagListOutput
  rw [flatMap_data_lines, hparse, List.map_map]
  exact (List.map_congr_left (fun t _ => rfl)).trans (List.map_id _)

theorem repo_listing_perm (r : Repo) (hsp : ∀ t ∈ r.tags, noSpace t = true) :
    r.listing.Perm (r.tags.filter (fun t => strings.HasPrefix t TagPrefix)) := by
  rw [repo_listing_eq r hsp]
  exact List.perm_insertionSort _ _

/-- On a repository whose listing holds the tag names that begin with `cindy/`,
the deletion loop of `SetLabel` succeeds and removes exactly the tags that
decode to the branch. -/
theorem repo_setLabel_deletes (b : String) (r : Repo) (hnd : r.tags.Nodup)
    (hperm : r.listing.Perm (r.tags.filter (fun t => strings.HasPrefix t TagPrefix))) :
    (GitLabeler.SetLabel.loop Repo.labeler b r r.listing).2 = none ∧
    (GitLabeler.SetLabel.loop Repo.labeler b r r.listing).1.tags =
      r.tags.filter (fun t => !decodesTo b t) := by
  obtain ⟨h1, h2⟩ := repo_setLabel_loop b r.listing r
    ((List.Perm.nodup_iff hperm).2 (hnd.filter _))
    (fun t ht _ => (List.mem_filter.1 ((List.Perm.mem_iff hperm).1 ht)).1)
  refine ⟨h1, ?_⟩
  rw [h2]
  apply List.filter_congr
  intro x hx
  by_cases hd : decodesTo b x = true
  · have hp := decodesTo_hasPrefix b x hd
    have hin : x ∈ r.listing :=
      (List.Perm.mem_iff hperm).2 (List.mem_filter.2 ⟨hx, hp⟩)
    simp [hd, hin]
  · simp [hd]

theorem repo_tagCreate_cases (r : Repo) (tag : String) :
    ((Repo.labeler.tagCreate r tag).2 = none ∧
      (Repo.labeler.tagCreate r tag).1.tags = r.tags ++ [tag]) ∨
    ((Repo.labeler.tagCreate r tag).2 ≠ none ∧ (Repo.labeler.tagCreate r tag).1 = r) := by
  unfold Repo.labeler
  simp only []
  split_ifs <;> simp

/-- `SetLabel` on a repository, after the listing and the deletions: what is
left is the creation of the new tag on the repository without the tags that
decoded to the branch. -/
theorem repo_setLabel_eq (r : Repo) (l : Label) (b : String) (hnd : r.tags.Nodup)
    (hperm : r.listing.Perm (r.tags.filter (fun t => strings.HasPrefix t TagPrefix))) :
    ∃ r2 : Repo, r2.tags = r.tags.filter (fun t => !decodesTo b t) ∧
      Repo.labeler.SetLabel r b l =
        match Repo.labeler.tagCreate r2 (TagName l b) with
        | (s3, some out) => (s3, some ("creating tag " ++ TagName l b ++ ": " ++ out))
        | (s3, none) => (Repo.labeler.pushTag s3 (TagName l b), none) := by
  obtain ⟨h1, h2⟩ := repo_setLabel_deletes b r hnd hperm
  refine ⟨(GitLabeler.SetLabel.loop Repo.labeler b r r.listing).1, h2, ?_⟩
  have hloop : GitLabeler.SetLabel.loop Repo.labeler b r r.listing =
      ((GitLabeler.SetLabel.loop Repo.labeler b r r.listing).1, none) :=
    Prod.ext rfl h1
  have hlist : Repo.labeler.listTags r = (r, .ok r.listing) := rfl
  unfold GitLabeler.SetLabel
  rw [hlist]
  simp only []
  rw [hloop]
  simp only []
  cases Repo.labeler.tagCreate (GitLabeler.SetLabel.loop Repo.labeler b r r.listing).1
      (TagName l b) with
  | mk s3 o => cases o <;> rfl

theorem repo_getLabel (r : Repo) (b : String) :
    Repo.labeler.GetLabel r b = (r, GitLabeler.GetLabel.loop b r.listing, none) := rfl

theorem repo_allLabels (r : Repo) :
    Repo.labeler.AllLabels r = (r, GitLabeler.AllLabels.loop r.listing ∅, none) := rfl

theorem noSpace_tagName (l : Label) (b : String) (hl : l ∈ AllLabels)
    (hb : noSpace b = true) : noSpace (TagName l b) = true := by
  have hvoc : ∀ k ∈ AllLabels, noSpace (TagPrefix ++ ShortLabel k ++ "/") = true := by
    decide
  have h1 := hvoc l hl
  unfold noSpace at h1 hb ⊢
  unfold TagName
  rw [String.data_append, List.all_append, h1, hb]
  rfl

/-- Where the tag names and the branch hold no white space, a `SetLabel` that
returns nil leaves exactly one tag that decodes to the branch, the new one, and
the other tags as they were; `GetLabel` then returns the label and `AllLabels`
has one entry for the branch. -/
theorem repo_setLabel_no_stale_tag (r : Repo) (l : Label) (b : String)
    (hl : l ∈ AllLabels) (hb : b ≠ "") (hnd : r.tags.Nodup)
    (hsp : ∀ t ∈ r.tags, noSpace t = true) (hbsp : noSpace b = true)
    (hok : (Repo.labeler.SetLabel r b l).2 = none) :
    (Repo.labeler.SetLabel r b l).1.tags.filter (decodesTo b) = [TagName l b] ∧
    (Repo.labeler.SetLabel r b l).1.tags.filter (fun t => !decodesTo b t) =
      r.tags.filter (fun t => !decodesTo b t) ∧
    (Repo.labeler.GetLabel (Repo.labeler.SetLabel r b l).1 b).2 = (l, none) ∧
    (Repo.labeler.AllLabels (Repo.labeler.SetLabel r b l).1).2.2 = none ∧
    (Repo.labeler.AllLabels (Repo.labeler.SetLabel r b l).1).2.1.lookup b = some l ∧
    (Repo.labeler.AllLabels (Repo.labeler.SetLabel r b l).1).2.1.keys.count b = 1 := by
  have hnew := decodesTo_tagName l b hl hb
  have hparse := parseTag_tagName l b hl hb
  obtain ⟨r2, hr2, heq⟩ := repo_setLabel_eq r l b hnd (repo_listing_perm r hsp)
  have htags : (Repo.labeler.SetLabel r b l).1.tags =
      r.tags.filter (fun t => !decodesTo b t) ++ [TagName l b] := by
    rcases repo_tagCreate_cases r2 (TagName l b) with ⟨hc1, hc2⟩ | ⟨hc1, _⟩
    · have hpair : Repo.labeler.tagCreate r2 (TagName l b) =
          ((Repo.labeler.tagCreate r2 (TagName l b)).1, none) := Prod.ext rfl hc1
      rw [heq, hpair]
      simp only []
      rw [repo_pushTag_tags, hc2, hr2]
    · exfalso
      rw [heq] at hok
      rcases hres : Repo.labeler.tagCreate r2 (TagName l b) with ⟨s3, _ | out⟩
      · rw [hres] at hc1
        exact hc1 rfl
      · rw [hres] at hok
        exact Option.noConfusion hok
  have hfil : (Repo.labeler.SetLabel r b l).1.tags.filter (decodesTo b) = [TagName l b] := by
    rw [htags, List.filter_append, List.filter_filter]
    simp [hnew]
  have hsp2 : ∀ t ∈ (Repo.labeler.SetLabel r b l).1.tags, noSpace t = true := by
    intro t ht
    rw [htags] at ht
    rcases List.mem_append.1 ht with h | h
    · exact hsp t (List.mem_filter.1 h).1
    · rw [List.mem_singleton] at h
      rw [h]
      exact noSpace_tagName l b hl hbsp
  have hlist : ((Repo.labeler.SetLabel r b l).1.listing.filter (decodesTo b)) = [TagName l b] := by
    have hp := (repo_listing_perm _ hsp2).filter (decodesTo b)
    rw [listing_filter_decodesTo, hfil] at hp
    exact List.perm_singleton.1 hp
  have hlook : (Repo.labeler.AllLabels (Repo.labeler.SetLabel r b l).1).2.1.lookup b
      = some l := by
    rw [repo_allLabels]
    simp only []
    rw [allLabels_loop_lookup, overwrite_foldl_filter, hlist]
    simp [hnew, hparse]
  refine ⟨hfil, ?_, ?_, by rw [repo_allLabels], hlook, keys_count_of_lookup _ _ _ hlook⟩
  · rw [htags, List.filter_append, List.filter_filter]
    simp [hnew]
  · rw [repo_getLabel]
    simp only []
    rw [getLabel_loop_filter, hlist, getLabel_loop_cons, if_pos hnew, hparse]

/-- C15 at the failing input: the repository whose only tag is
`cindy/approved/x` followed by a no-break space (U+00A0, written `\u00a0`
below), the branch `x` followed by that space, and the label `Deploying`.
`listTags` trims the whole listing, reads the tag as `cindy/approved/x` and so
as a tag of the branch `x`; `SetLabel` deletes nothing, creates the new tag and
returns nil.  Afterwards two tags decode to the branch, the stale one among
them, `GetLabel` returns the stale label `Approved`, and so does the entry of
`AllLabels`.  On the empty repository `SetLabel` returns nil and afterwards
`GetLabel` returns the empty label and `AllLabels` has no entry for the
branch. -/
theorem C15_gitLabeler_setLabel_stale_tag :
    Deploying ∈ AllLabels ∧ ("x\u00a0" : String) ≠ "" ∧
    (Repo.mk ["cindy/approved/x\u00a0"] none).tags.Nodup ∧
    (Repo.mk ["cindy/approved/x\u00a0"] none).listing = ["cindy/approved/x"] ∧
    (Repo.labeler.SetLabel ⟨["cindy/approved/x\u00a0"], none⟩ "x\u00a0" Deploying).2 = none ∧
    (Repo.labeler.SetLabel ⟨["cindy/approved/x\u00a0"], none⟩ "x\u00a0" Deploying).1.tags =
      ["cindy/approved/x\u00a0", "cindy/deploying/x\u00a0"] ∧
    (Repo.labeler.SetLabel ⟨["cindy/approved/x\u00a0"], none⟩ "x\u00a0"
        Deploying).1.tags.filter (decodesTo "x\u00a0") =
      ["cindy/approved/x\u00a0", "cindy/deploying/x\u00a0"] ∧
    (Repo.labeler.GetLabel
        (Repo.labeler.SetLabel ⟨["cindy/approved/x\u00a0"], none⟩ "x\u00a0" Deploying).1
        "x\u00a0").2 = (Approved, none) ∧
    (Repo.labeler.AllLabels
        (Repo.labeler.SetLabel ⟨["cindy/approved/x\u00a0"], none⟩ "x\u00a0" Deploying).1
        ).2.1.lookup "x\u00a0" = some Approved ∧
    (Repo.labeler.SetLabel ⟨[], none⟩ "x\u00a0" Deploying).2 = none ∧
    (Repo.labeler.SetLabel ⟨[], none⟩ "x\u00a0" Deploying).1.tags =
      ["cindy/deploying/x\u00a0"] ∧
    (Repo.labeler.GetLabel (Repo.labeler.SetLabel ⟨[], none⟩ "x\u00a0" Deploying).1
        "x\u00a0").2 = ("", none) ∧
    (Repo.labeler.AllLabels (Repo.labeler.SetLabel ⟨[], none⟩ "x\u00a0" Deploying).1
        ).2.1.lookup "x\u00a0" = none := by
  decide

/-! ### The collaborator as a script of outcomes -/

theorem script_pushDeleteTag (o : Script) (log : List GitCall) (t : String) :
    o.labeler.pushDeleteTag log t =
      if o.remoteExists then log ++ [GitCall.remoteGetUrl] ++ [GitCall.pushDelete t]
      else log ++ [GitCall.remoteGetUrl] := by
  unfold GitLabeler.pushDeleteTag GitLabeler.hasRemote Script.labeler
  cases o.remoteExists <;> rfl

theorem script_pushTag (o : Script) (log : List GitCall) (t : String) :
    o.labeler.pushTag log t =
      if o.remoteExists then log ++ [GitCall.remoteGetUrl] ++ [GitCall.push t]
      else log ++ [GitCall.remoteGetUrl] := by
  unfold GitLabeler.pushTag GitLabeler.hasRemote Script.labeler
  cases o.remoteExists <;> rfl

theorem script_pushDeleteTag_no_push (o : Script) (log : List GitCall) (t u : String)
    (h : GitCall.push u ∈ o.labeler.pushDeleteTag log t) : GitCall.push u ∈ log := by
  rw [script_pushDeleteTag] at h
  cases hr : o.remoteExists <;> rw [hr] at h <;> simpa using h

theorem script_deleteTag (o : Script) (log : List GitCall) (t : String) :
    o.labeler.deleteTag log t = (log ++ [GitCall.tagDelete t], o.deleteFails t) := rfl

/-- The deletion loop on a script fails exactly when the local deletion of a
listed tag of the branch fails. -/
theorem script_loop_error_iff (o : Script) (b : String) (tags : List String)
    (log : List GitCall) :
    (GitLabeler.SetLabel.loop o.labeler b log tags).2 ≠ none ↔
      ∃ t ∈ tags, decodesTo b t = true ∧ o.deleteFails t ≠ none := by
  induction tags generalizing log with
  | nil => simp [GitLabeler.SetLabel.loop]
  | cons t ts ih =>
    rw [setLabel_loop_cons]
    by_cases hd : decodesTo b t = true
    · rw [if_pos hd, script_deleteTag]
      cases hf : o.deleteFails t with
      | some err =>
        simp only [ne_eq, reduceCtorEq, not_false_eq_true, true_iff]
        exact ⟨t, List.mem_cons_self _ _, hd, by rw [hf]; simp⟩
      | none =>
        simp only []
        rw [ih]
        constructor
        · rintro ⟨x, hx, hdx, hfx⟩
          exact ⟨x, List.mem_cons_of_mem _ hx, hdx, hfx⟩
        · rintro ⟨x, hx, hdx, hfx⟩
          rcases List.mem_cons.1 hx with e | hmem
          · subst e
            exact absurd hf hfx
          · exact ⟨x, hmem, hdx, hfx⟩
    · rw [if_neg hd, ih]
      constructor
      · rintro ⟨x, hx, hdx, hfx⟩
        exact ⟨x, List.mem_cons_of_mem _ hx, hdx, hfx⟩
      · rintro ⟨x, hx, hdx, hfx⟩
        rcases List.mem_cons.1 hx with e | hmem
        · subst e
          exact absurd hdx hd
        · exact ⟨x, hmem, hdx, hfx⟩

/-- The error of the deletion loop depends on the outcomes of the local
deletions only. -/
theorem script_loop_error_congr (o o2 : Script) (b : String) (tags : List String)
    (log log2 : List GitCall) (hdel : o2.deleteFails = o.deleteFails) :
    (GitLabeler.SetLabel.loop o2.labeler b log2 tags).2 =
      (GitLabeler.SetLabel.loop o.labeler b log tags).2 := by
  induction tags generalizing log log2 with
  | nil => rfl
  | cons t ts ih =>
    rw [setLabel_loop_cons, setLabel_loop_cons]
    by_cases hd : decodesTo b t = true
    · rw [if_pos hd, if_pos hd, script_deleteTag, script_deleteTag, hdel]
      cases o.deleteFails t with
      | some err => rfl
      | none => exact ih _ _
    · rw [if_neg hd, if_neg hd]
      exact ih _ _

theorem script_loop_no_push (o : Script) (b : String) (tags : List String)
    (log : List GitCall) (u : String)
    (h : GitCall.push u ∈ (GitLabeler.SetLabel.loop o.labeler b log tags).1) :
    GitCall.push u ∈ log := by
  induction tags generalizing log with
  | nil => exact h
  | cons t ts ih =>
    rw [setLabel_loop_cons] at h
    by_cases hd : decodesTo b t = true
    · rw [if_pos hd, script_deleteTag] at h
      cases hf : o.deleteFails t with
      | some err =>
        rw [hf] at h
        simpa using h
      | none =>
        rw [hf] at h
        have h2 := script_pushDeleteTag_no_push o _ t u (ih _ h)
        simpa using h2
    · rw [if_neg hd] at h
      exact ih _ h

theorem script_setLabel_list_error (o : Script) (log : List GitCall) (b : String)
    (l : Label) (e : String) (h : o.list = .error e) :
    o.labeler.SetLabel log b l =
      (log ++ [GitCall.tagList], some ("listing tags: " ++ e)) := by
  have hl : o.labeler.listTags log =
      (log ++ [GitCall.tagList], .error ("listing tags: " ++ e)) :=
    listTags_error o.labeler log _ e (by show (_, o.list) = _; rw [h])
  unfold GitLabeler.SetLabel
  rw [hl]

theorem script_setLabel_loop_error (o : Script) (log : List GitCall) (b : String)
    (l : Label) (tags : List String) (err : String) (h : o.list = .ok tags)
    (hloop : (GitLabeler.SetLabel.loop o.labeler b (log ++ [GitCall.tagList]) tags).2
      = some err) :
    o.labeler.SetLabel log b l =
      ((GitLabeler.SetLabel.loop o.labeler b (log ++ [GitCall.tagList]) tags).1,
        some err) := by
  have hl : o.labeler.listTags log = (log ++ [GitCall.tagList], .ok tags) :=
    listTags_ok o.labeler log _ tags (by show (_, o.list) = _; rw [h])
  have hpair : GitLabeler.SetLabel.loop o.labeler b (log ++ [GitCall.tagList]) tags =
      ((GitLabeler.SetLabel.loop o.labeler b (log ++ [GitCall.tagList]) tags).1, some err) :=
    Prod.ext rfl hloop
  unfold GitLabeler.SetLabel
  rw [hl]
  simp only []
  rw [hpair]

theorem script_setLabel_create (o : Script) (log : List GitCall) (b : String)
    (l : Label) (tags : List String) (h : o.list = .ok tags)
    (hloop : (GitLabeler.SetLabel.loop o.labeler b (log ++ [GitCall.tagList]) tags).2
      = none) :
    o.labeler.SetLabel log b l =
      match o.createFails (TagName l b) with
      | some out =>
        ((GitLabeler.SetLabel.loop o.labeler b (log ++ [GitCall.tagList]) tags).1
            ++ [GitCall.tagCreate (TagName l b)],
          some ("creating tag " ++ TagName l b ++ ": " ++ out))
      | none =>
        (o.labeler.pushTag
          ((GitLabeler.SetLabel.loop o.labeler b (log ++ [GitCall.tagList]) tags).1
            ++ [GitCall.tagCreate (TagName l b)]) (TagName l b), none) := by
  have hl : o.labeler.listTags log = (log ++ [GitCall.tagList], .ok tags) :=
    listTags_ok o.labeler log _ tags (by show (_, o.list) = _; rw [h])
  have hpair : GitLabeler.SetLabel.loop o.labeler b (log ++ [GitCall.tagList]) tags =
      ((GitLabeler.SetLabel.loop o.labeler b (log ++ [GitCall.tagList]) tags).1, none) :=
    Prod.ext rfl hloop
  have hcreate : ∀ s2, o.labeler.tagCreate s2 (TagName l b) =
      (s2 ++ [GitCall.tagCreate (TagName l b)], o.createFails (TagName l b)) :=
    fun _ => rfl
  unfold GitLabeler.SetLabel
  rw [hl]
  simp only []
  rw [hpair]
  simp only [hcreate]
  cases o.createFails (TagName l b) <;> rfl

theorem script_setLabel_error_iff (o : Script) (log : List GitCall) (b : String)
    (l : Label) :
    (o.labeler.SetLabel log b l).2 ≠ none ↔
      (∃ e, o.list = .error e) ∨
      (∃ tags, o.list = .ok tags ∧
        ∃ t ∈ tags, decodesTo b t = true ∧ o.deleteFails t ≠ none) ∨
      o.createFails (TagName l b) ≠ none := by
  cases hlist : o.list with
  | error e =>
    rw [script_setLabel_list_error o log b l e hlist]
    simp
  | ok tags =>
    have hiff := script_loop_error_iff o b tags (log ++ [GitCall.tagList])
    cases hloop : (GitLabeler.SetLabel.loop o.labeler b (log ++ [GitCall.tagList]) tags).2 with
    | some err =>
      rw [script_setLabel_loop_error o log b l tags err hlist hloop]
      rw [hloop] at hiff
      have hex := hiff.1 (by simp)
      simp only [ne_eq, reduceCtorEq, not_false_eq_true, true_iff]
      exact Or.inr (Or.inl ⟨tags, rfl, hex⟩)
    | none =>
      rw [script_setLabel_create o log b l tags hlist hloop]
      rw [hloop] at hiff
      have hno : ¬ ∃ t ∈ tags, decodesTo b t = true ∧ o.deleteFails t ≠ none :=
        fun hex => (hiff.2 hex) rfl
      cases hc : o.createFails (TagName l b) with
      | some out => simp
      | none =>
        simp only [ne_eq, not_true_eq_false, false_iff, not_or, reduceCtorEq,
          not_false_eq_true, exists_false, true_and, and_true]
        rintro ⟨tags2, heq, hex⟩
        cases heq
        exact hno hex

theorem script_setLabel_error_congr (o o2 : Script) (log : List GitCall) (b : String)
    (l : Label) (hlist : o2.list = o.list) (hdel : o2.deleteFails = o.deleteFails)
    (hcreate : o2.createFails = o.createFails) :
    (o2.labeler.SetLabel log b l).2 = (o.labeler.SetLabel log b l).2 := by
  cases hl : o.list with
  | error e =>
    rw [script_setLabel_list_error o log b l e hl,
      script_setLabel_list_error o2 log b l e (hlist.trans hl)]
  | ok tags =>
    have hcongr := script_loop_error_congr o o2 b tags (log ++ [GitCall.tagList])
      (log ++ [GitCall.tagList]) hdel
    cases hloop : (GitLabeler.SetLabel.loop o.labeler b (log ++ [GitCall.tagList]) tags).2 with
    | some err =>
      rw [script_setLabel_loop_error o log b l tags err hl hloop,
        script_setLabel_loop_error o2 log b l tags err (hlist.trans hl) (hcongr.trans hloop)]
    | none =>
      rw [script_setLabel_create o log b l tags hl hloop,
        script_setLabel_create o2 log b l tags (hlist.trans hl) (hcongr.trans hloop), hcreate]
      cases o.createFails (TagName l b) <;> rfl

theorem script_setLabel_no_push (o : Script) (log : List GitCall) (b : String)
    (l : Label) (hfail : o.createFails (TagName l b) ≠ none) (u : String)
    (h : GitCall.push u ∈ (o.labeler.SetLabel log b l).1) : GitCall.push u ∈ log := by
  cases hl : o.list with
  | error e =>
    rw [script_setLabel_list_error o log b l e hl] at h
    simpa using h
  | ok tags =>
    have hbase : ∀ log2, GitCall.push u ∈ log2 ++ [GitCall.tagList] → GitCall.push u ∈ log2 :=
      fun log2 hm => by simpa using hm
    cases hloop : (GitLabeler.SetLabel.loop o.labeler b (log ++ [GitCall.tagList]) tags).2 with
    | some err =>
      rw [script_setLabel_loop_error o log b l tags err hl hloop] at h
      exact hbase _ (script_loop_no_push o b tags _ u h)
    | none =>
      rw [script_setLabel_create o log b l tags hl hloop] at h
      cases hc : o.createFails (TagName l b) with
      | none => exact absurd hc hfail
      | some out =>
        rw [hc] at h
        have h2 : GitCall.push u ∈
            (GitLabeler.SetLabel.loop o.labeler b (log ++ [GitCall.tagList]) tags).1 := by
          simpa using h
        exact hbase _ (script_loop_no_push o b tags _ u h2)

/-- C17: asymmetric error handling of `SetLabel`.  With every git command a
collaborator call that succeeds or fails as a script says: `SetLabel` returns
a non-nil error exactly when listing the tags fails, or the local deletion of
some listed tag of the branch fails, or the local creation of the new tag
fails; a script that differs only in whether a remote exists and in the
outcomes of pushes and remote deletions gives the same result; and when the
local creation fails no push is among the calls that `SetLabel` makes. -/
theorem C17_gitLabeler_setLabel_errors (o : Script) (log : List GitCall) (b : String)
    (l : Label) :
    ((o.labeler.SetLabel log b l).2 ≠ none ↔
      (∃ e, o.list = .error e) ∨
      (∃ tags, o.list = .ok tags ∧
        ∃ t ∈ tags, decodesTo b t = true ∧ o.deleteFails t ≠ none) ∨
      o.createFails (TagName l b) ≠ none) ∧
    (∀ o2 : Script, o2.list = o.list → o2.deleteFails = o.deleteFails →
      o2.createFails = o.createFails →
      (o2.labeler.SetLabel log b l).2 = (o.labeler.SetLabel log b l).2) ∧
    (o.createFails (TagName l b) ≠ none →
      ∀ u, GitCall.push u ∈ (o.labeler.SetLabel log b l).1 → GitCall.push u ∈ log) :=
  ⟨script_setLabel_error_iff o log b l,
   fun o2 h1 h2 h3 => script_setLabel_error_congr o o2 log b l h1 h2 h3,
   fun hfail u h => script_setLabel_no_push o log b l hfail u h⟩

/-- C17 on two scripts over the listing `cindy/approved/x`: with no remote
`SetLabel` succeeds, as in `TestGitLabeler_NoRemote`; with a remote whose pushes
fail and a failing local creation, the calls made contain no push. -/
theorem C17_gitLabeler_setLabel_errors_witness :
    ((⟨.ok ["cindy/approved/x"], fun _ => none, fun _ => none, false,
        fun _ => none, fun _ => none⟩ : Script).labeler.SetLabel [] "x" Ready).2 = none ∧
    GitCall.push "cindy/ready/x" ∉
      ((⟨.ok ["cindy/approved/x"], fun _ => none, fun _ => some "fatal", true,
        fun _ => some "rejected", fun _ => some "rejected"⟩ : Script).labeler.SetLabel
        [] "x" Ready).1 :=
  ⟨by
    have h := (C17_gitLabeler_setLabel_errors
      ⟨.ok ["cindy/approved/x"], fun _ => none, fun _ => none, false,
        fun _ => none, fun _ => none⟩ [] "x" Ready).1
    by_contra hne
    rcases h.1 hne with ⟨e, he⟩ | ⟨tags, _, t, _, _, ht⟩ | hc
    · exact Except.noConfusion he
    · exact ht rfl
    · exact hc rfl,
   fun hmem => by
    have h := (C17_gitLabeler_setLabel_errors
      ⟨.ok ["cindy/approved/x"], fun _ => none, fun _ => some "fatal", true,
        fun _ => some "rejected", fun _ => some "rejected"⟩ [] "x" Ready).2.2
      (by simp) "cindy/ready/x" hmem
    simp at h⟩

/-! ## Rule texts of the validator -/

/-- C21, as the specification words it, fails: on a manifest with one removed
field and one modified field the rule texts of the two violations are the
constants of `manifest.go`, which put the advice in parentheses, not the
texts with a dash that the specification quotes. -/
theorem C21_rule_texts_counterexample :
    (ValidateSchemaChanges
        ⟨0, none, [], [⟨"a.b", SchemaExtension, [], ["x"], ["z"]⟩], [], "", [], ""⟩).map
      (fun v => v.Rule) =
      ["field removal not allowed (deprecate instead)",
       "field type modification not allowed (add new field instead)"] ∧
    ¬ (∀ v ∈ ValidateSchemaChanges
          ⟨0, none, [], [⟨"a.b", SchemaExtension, [], ["x"], ["z"]⟩], [], "", [], ""⟩,
        v.Rule = "field removal not allowed — deprecate instead" ∨
        v.Rule = "field type modification not allowed — add new field instead") := by
  decide

/-- C21, amended: for every manifest the violations are, per schema change in
manifest order, one violation per removed field with the rule text
`field removal not allowed (deprecate instead)` followed by one violation per
modified field with the rule text
`field type modification not allowed (add new field instead)`; so every
violation carries one of these two texts, the first with a removed field of
its subject and the second with a modified field of its subject. -/
theorem C21_rule_texts (m : Manifest) :
    ValidateSchemaChanges m =
      m.SchemaChanges.flatMap (fun sc =>
        sc.FieldsRemoved.map
            (fun f => ⟨sc.Subject, f, "field removal not allowed (deprecate instead)"⟩)
          ++ sc.FieldsModified.map
            (fun f =>
              ⟨sc.Subject, f, "field type modification not allowed (add new field instead)"⟩)) ∧
    (∀ v ∈ ValidateSchemaChanges m,
      (v.Rule = "field removal not allowed (deprecate instead)" ∧
        ∃ sc ∈ m.SchemaChanges, v.Subject = sc.Subject ∧ v.Field ∈ sc.FieldsRemoved) ∨
      (v.Rule = "field type modification not allowed (add new field instead)" ∧
        ∃ sc ∈ m.SchemaChanges, v.Subject = sc.Subject ∧ v.Field ∈ sc.FieldsModified)) := by
  refine ⟨validate_eq_specValidate m, fun v hv => ?_⟩
  rw [validate_eq_specValidate] at hv
  unfold specValidate at hv
  obtain ⟨sc, hsc, hmem⟩ := List.mem_flatMap.1 hv
  unfold specViolationsOf at hmem
  rcases List.mem_append.1 hmem with h | h
  · obtain ⟨f, hf, rfl⟩ := List.mem_map.1 h
    exact Or.inl ⟨rfl, sc, hsc, rfl, hf⟩
  · obtain ⟨f, hf, rfl⟩ := List.mem_map.1 h
    exact Or.inr ⟨rfl, sc, hsc, rfl, hf⟩

/-! ## Uniqueness of the decoded label -/

theorem shortLabel_not_hasPrefix :
    ∀ l1 ∈ AllLabels, ∀ l2 ∈ AllLabels, l1 ≠ l2 →
      strings.HasPrefix (ShortLabel l2) (ShortLabel l1) = false := by
  decide

/-- At most one vocabulary label has its short form plus slash at the front of
a given string. -/
theorem hasPrefix_short_at_most_one (rest : String) (l1 l2 : Label)
    (h1 : l1 ∈ AllLabels) (h2 : l2 ∈ AllLabels)
    (hp1 : strings.HasPrefix rest (ShortLabel l1 ++ "/") = true)
    (hp2 : strings.HasPrefix rest (ShortLabel l2 ++ "/") = true) : l1 = l2 := by
  obtain ⟨b, rfl⟩ := (hasPrefix_iff _ _).1 hp2
  exact hasPrefix_short_unique l2 l1 b h2 h1 hp1

/-- C22: short forms are pairwise non-prefixing.  For two distinct labels of
`AllLabels` the short form of one is not a prefix of the short form of the
other; so for every string `rest` at most one vocabulary label has its short
form plus slash at the front of `rest`, and the label that the first-match loop
of `ParseTag` returns is the only vocabulary label that matches. -/
theorem C22_short_forms_non_prefixing (rest : String) :
    (∀ l1 ∈ AllLabels, ∀ l2 ∈ AllLabels, l1 ≠ l2 →
      strings.HasPrefix (ShortLabel l2) (ShortLabel l1) = false) ∧
    (∀ l1 ∈ AllLabels, ∀ l2 ∈ AllLabels,
      strings.HasPrefix rest (ShortLabel l1 ++ "/") = true →
      strings.HasPrefix rest (ShortLabel l2 ++ "/") = true → l1 = l2) ∧
    (∀ (l : Label) (b : String), ParseTag.loop rest allLabels = (l, b, true) →
      ∀ k ∈ AllLabels, strings.HasPrefix rest (ShortLabel k ++ "/") = true → k = l) := by
  refine ⟨shortLabel_not_hasPrefix,
    fun l1 h1 l2 h2 hp1 hp2 => hasPrefix_short_at_most_one rest l1 l2 h1 h2 hp1 hp2,
    fun l b hloop k hk hpk => ?_⟩
  obtain ⟨hl, _, hrest⟩ := parseTag_loop_sound rest allLabels l b hloop
  exact hasPrefix_short_at_most_one rest k l hk hl hpk
    (by rw [hrest]; exact hasPrefix_append _ _)

/-- C22 at the remainder `deployed/main`: `Deployed` matches, so `Deploying`,
whose short form shares six characters with it, does not. -/
theorem C22_short_forms_non_prefixing_witness :
    strings.HasPrefix "deployed/main" (ShortLabel Deploying ++ "/") = false := by
  rw [Bool.eq_false_iff]
  intro h
  exact absurd
    ((C22_short_forms_non_prefixing "deployed/main").2.1 Deploying (by decide) Deployed
      (by decide) h (by decide))
    (by decide)

/-! ## Decoding is a right inverse of encoding -/

theorem parseTag_sound (tag : String) (l : Label) (b : String)
    (h : ParseTag tag = (l, b, true)) :
    l ∈ AllLabels ∧ b ≠ "" ∧ TagName l b = tag := by
  have hok : (ParseTag tag).2.2 = true := by rw [h]
  have hp : strings.HasPrefix tag TagPrefix = true := by
    by_contra hp
    have hfalse : (ParseTag tag).2.2 = false := by
      unfold ParseTag
      simp [hp]
    rw [hok] at hfalse
    exact Bool.noConfusion hfalse
  have hloop : ParseTag.loop (strings.TrimPrefix tag TagPrefix) allLabels = (l, b, true) := by
    unfold ParseTag at h
    simpa [hp] using h
  obtain ⟨hl, hb, hrest⟩ := parseTag_loop_sound _ _ l b hloop
  refine ⟨hl, hb, ?_⟩
  rw [tagName_eq, ← hrest]
  exact (eq_append_trimPrefix tag TagPrefix hp).symm

/-- C23: decoding is a right inverse of encoding on accepted tags.  If
`ParseTag tag` returns `(l, b, true)` then `l` is a label of `AllLabels`, `b` is
non-empty and `TagName l b = tag`; hence two tags that decode to the same pair
are equal, and `TagName` is injective on vocabulary labels and non-empty
branches. -/
theorem C23_parseTag_right_inverse (tag : String) (l : Label) (b : String)
    (h : ParseTag tag = (l, b, true)) :
    l ∈ AllLabels ∧ b ≠ "" ∧ TagName l b = tag ∧
    (∀ tag2 : String, ParseTag tag2 = (l, b, true) → tag2 = tag) ∧
    (∀ (l1 l2 : Label) (b1 b2 : String), l1 ∈ AllLabels → l2 ∈ AllLabels →
      b1 ≠ "" → b2 ≠ "" → TagName l1 b1 = TagName l2 b2 → l1 = l2 ∧ b1 = b2) := by
  obtain ⟨hl, hb, htag⟩ := parseTag_sound tag l b h
  refine ⟨hl, hb, htag, fun tag2 h2 => ?_, fun l1 l2 b1 b2 h1 h2 hb1 hb2 heq => ?_⟩
  · rw [← htag, ← (parseTag_sound tag2 l b h2).2.2]
  · have e1 := parseTag_tagName l1 b1 h1 hb1
    have e2 := parseTag_tagName l2 b2 h2 hb2
    rw [heq, e2] at e1
    simp only [Prod.mk.injEq, and_true] at e1
    exact ⟨e1.1.symm, e1.2.symm⟩

/-- C23 at the tag `cindy/rollback/hotfix/urgent` of `TestParseTag`. -/
theorem C23_parseTag_right_inverse_witness :
    Rollback ∈ AllLabels ∧ ("hotfix/urgent" : String) ≠ "" ∧
    TagName Rollback "hotfix/urgent" = "cindy/rollback/hotfix/urgent" :=
  ⟨(C23_parseTag_right_inverse "cindy/rollback/hotfix/urgent" Rollback "hotfix/urgent"
      (by decide)).1,
   (C23_parseTag_right_inverse "cindy/rollback/hotfix/urgent" Rollback "hotfix/urgent"
      (by decide)).2.1,
   (C23_parseTag_right_inverse "cindy/rollback/hotfix/urgent" Rollback "hotfix/urgent"
      (by decide)).2.2.1⟩

/-! ## Reachability in the state machine -/

theorem step_iff_mem (a b : Label) : Step a b ↔ b ∈ ValidTransitionsFrom a :=
  canTransition_iff_mem a b

theorem reachWithin_sound (n : Nat) (a b : Label) (h : reachWithin n a b = true) :
    Relation.ReflTransGen Step a b := by
  induction n generalizing a with
  | zero =>
    have e : a = b := by simpa [reachWithin] using h
    rw [e]
  | succ n ih =>
    unfold reachWithin at h
    rw [Bool.or_eq_true, List.any_eq_true] at h
    rcases h with h | ⟨c, hc, hr⟩
    · have e : a = b := by simpa using h
      rw [e]
    · exact Relation.ReflTransGen.head ((step_iff_mem a c).2 hc) (ih c hr)

theorem step_from_deploying (x : Label) (h : Step Deploying x) :
    x = Deployed ∨ x = Rollback := by
  have hm := (step_iff_mem _ _).1 h
  have hv : ValidTransitionsFrom Deploying = [Deployed, Rollback] := by decide
  rw [hv] at hm
  simpa using hm

theorem step_from_deployed (x : Label) (h : Step Deployed x) : x = Rollback := by
  have hm := (step_iff_mem _ _).1 h
  have hv : ValidTransitionsFrom Deployed = [Rollback] := by decide
  rw [hv] at hm
  simpa using hm

theorem no_step_from_rollback (x : Label) : ¬ Step Rollback x := by
  intro h
  have hm := (step_iff_mem _ _).1 h
  have hv : ValidTransitionsFrom Rollback = [] := by decide
  rw [hv] at hm
  simp at hm

theorem transGen_from_rollback (x : Label) : ¬ Relation.TransGen Step Rollback x := by
  intro h
  rcases Relation.TransGen.head'_iff.1 h with ⟨c, hc, _⟩
  exact no_step_from_rollback c hc

theorem transGen_from_deployed (x : Label) :
    Relation.TransGen Step Deployed x ↔ x = Rollback := by
  constructor
  · intro h
    rcases Relation.TransGen.head'_iff.1 h with ⟨c, hc, hrest⟩
    have e := step_from_deployed c hc
    subst e
    rcases Relation.reflTransGen_iff_eq_or_transGen.1 hrest with e | ht
    · exact e
    · exact absurd ht (transGen_from_rollback x)
  · rintro rfl
    exact Relation.TransGen.single (show CanTransition Deployed Rollback = true by decide)

theorem transGen_from_deploying (x : Label) :
    Relation.TransGen Step Deploying x ↔ x = Deployed ∨ x = Rollback := by
  constructor
  · intro h
    rcases Relation.TransGen.head'_iff.1 h with ⟨c, hc, hrest⟩
    rcases step_from_deploying c hc with e | e
    · subst e
      rcases Relation.reflTransGen_iff_eq_or_transGen.1 hrest with e2 | ht
      · exact Or.inl e2
      · exact Or.inr ((transGen_from_deployed x).1 ht)
    · subst e
      rcases Relation.reflTransGen_iff_eq_or_transGen.1 hrest with e2 | ht
      · exact Or.inr e2
      · exact absurd ht (transGen_from_rollback x)
  · rintro (rfl | rfl)
    · exact Relation.TransGen.single (show CanTransition Deploying Deployed = true by decide)
    · exact Relation.TransGen.single (show CanTransition Deploying Rollback = true by decide)

/-- C24: deployment is irreversible.  In the step relation given by
`CanTransition`, the labels reached from `Deploying` in one or more steps are
exactly `Deployed` and `Rollback`, and from `Deployed` exactly `Rollback`; so
from `Deploying` no sequence of legal transitions, empty or not, leads to
`Ready`, `Analyzing`, `Approved`, `Blocked`, `HumanReview`, `RevisionRequested`
or `Rejected`. -/
theorem C24_deployment_irreversible (x : Label) :
    (Relation.TransGen Step Deploying x ↔ x = Deployed ∨ x = Rollback) ∧
    (Relation.TransGen Step Deployed x ↔ x = Rollback) ∧
    (x ∈ [Ready, Analyzing, Approved, Blocked, HumanReview, RevisionRequested, Rejected] →
      ¬ Relation.TransGen Step Deploying x ∧ ¬ Relation.ReflTransGen Step Deploying x ∧
      ¬ Relation.ReflTransGen Step Deployed x) := by
  refine ⟨transGen_from_deploying x, transGen_from_deployed x, fun hx => ?_⟩
  have hne : x ≠ Deploying ∧ x ≠ Deployed ∧ x ≠ Rollback := by
    revert x
    decide
  have h1 : ¬ Relation.TransGen Step Deploying x := by
    rw [transGen_from_deploying]
    rintro (e | e)
    · exact hne.2.1 e
    · exact hne.2.2 e
  have h2 : ¬ Relation.TransGen Step Deployed x := by
    rw [transGen_from_deployed]
    exact hne.2.2
  refine ⟨h1, fun h => ?_, fun h => ?_⟩
  · rcases Relation.reflTransGen_iff_eq_or_transGen.1 h with e | ht
    · exact hne.1 e
    · exact h1 ht
  · rcases Relation.reflTransGen_iff_eq_or_transGen.1 h with e | ht
    · exact hne.2.1 e
    · exact h2 ht

/-- C24 at `Ready`: no sequence of legal transitions leads from `Deploying`
back to `Ready`. -/
theorem C24_deployment_irreversible_witness :
    ¬ Relation.ReflTransGen Step Deploying Ready :=
  ((C24_deployment_irreversible Ready).2.2 (by decide)).2.1

theorem protocolTable_irreflexive : ∀ p ∈ protocolTable, p.1 ≠ p.2 := by
  decide

theorem reach_from_ready : ∀ l ∈ AllLabels, reachWithin 5 Ready l = true := by
  decide

theorem reach_terminal :
    ∀ l ∈ AllLabels, IsTerminal l = false →
      (reachWithin 3 l Rejected || reachWithin 3 l Rollback) = true := by
  decide

/-- C25: the state machine has no unreachable label and no trap.  In the step
relation given by `CanTransition`, every label of `AllLabels` is reached from
`Ready` by a possibly empty sequence of legal transitions; from every
non-terminal label of `AllLabels` a terminal label, `Rejected` or `Rollback`, is
reached; and no label, in the vocabulary or not, has a transition to itself. -/
theorem C25_no_unreachable_no_trap (l : Label) :
    (l ∈ AllLabels → Relation.ReflTransGen Step Ready l) ∧
    (l ∈ AllLabels → IsTerminal l = false →
      ∃ t, (t = Rejected ∨ t = Rollback) ∧ IsTerminal t = true ∧
        Relation.ReflTransGen Step l t) ∧
    CanTransition l l = false := by
  refine ⟨fun hl => reachWithin_sound 5 Ready l (reach_from_ready l hl), fun hl hnt => ?_, ?_⟩
  · have h := reach_terminal l hl hnt
    rw [Bool.or_eq_true] at h
    rcases h with h | h
    · exact ⟨Rejected, Or.inl rfl, by decide, reachWithin_sound 3 l Rejected h⟩
    · exact ⟨Rollback, Or.inr rfl, by decide, reachWithin_sound 3 l Rollback h⟩
  · rw [Bool.eq_false_iff]
    intro h
    exact protocolTable_irreflexive (l, l) ((canTransition_iff_protocolTable l l).1 h) rfl

/-- C25 at `RevisionRequested`: it is reached from `Ready`, and a terminal
label is reached from it. -/
theorem C25_no_unreachable_no_trap_witness :
    Relation.ReflTransGen Step Ready RevisionRequested ∧
    ∃ t, (t = Rejected ∨ t = Rollback) ∧ IsTerminal t = true ∧
      Relation.ReflTransGen Step RevisionRequested t :=
  ⟨(C25_no_unreachable_no_trap RevisionRequested).1 (by decide),
   (C25_no_unreachable_no_trap RevisionRequested).2.1 (by decide) (by decide)⟩

/-! ## First tag against last tag -/

/-- When at most one listed tag decodes to `b`, the first-match loop of
`GetLabel` and the overwriting loop of `AllLabels` read the same label. -/
theorem getLabel_loop_eq_mapGet (tags : List String) (b : String)
    (h : (tags.filter (decodesTo b)).length ≤ 1) :
    GitLabeler.GetLabel.loop b tags = mapGet (GitLabeler.AllLabels.loop tags ∅) b := by
  unfold mapGet
  rw [getLabel_loop_filter, allLabels_loop_lookup, overwrite_foldl_filter, AList.lookup_empty]
  cases hf : tags.filter (decodesTo b) with
  | nil => rfl
  | cons t rest =>
    have hd : decodesTo b t = true := by
      have hmem : t ∈ tags.filter (decodesTo b) := by rw [hf]; exact List.mem_cons_self _ _
      exact (List.mem_filter.1 hmem).2
    cases rest with
    | nil =>
      rw [getLabel_loop_cons, if_pos hd, List.foldl_cons, if_pos hd]
      rfl
    | cons t2 rest2 =>
      rw [hf] at h
      simp at h

/-- C26: `GetLabel` and `AllLabels` of the persistent store can disagree when
duplicate tags exist.  On the listing `cindy/approved/x`, `cindy/deploying/x`
`GetLabel x` returns the label of the first tag, `Approved`, while `AllLabels`
maps `x` to the label of the last tag, `Deploying`.  For every successful
listing in which at most one tag decodes to each branch, `GetLabel b` is the
entry for `b` in `AllLabels`, or the empty label when `b` has no entry. -/
theorem C26_getLabel_allLabels_first_last {σ : Type} (gl : GitLabeler σ) (s s1 : σ)
    (tags : List String) (hlist : gl.tagList s = (s1, .ok tags))
    (huniq : ∀ b, (tags.filter (decodesTo b)).length ≤ 1) :
    (∀ b, (gl.GetLabel s b).2.1 = mapGet (gl.AllLabels s).2.1 b) ∧
    (∀ b, (gl.GetLabel s b).2.2 = none ∧ (gl.AllLabels s).2.2 = none) ∧
    (Repo.labeler.GetLabel ⟨["cindy/approved/x", "cindy/deploying/x"], none⟩ "x").2
      = (Approved, none) ∧
    (Repo.labeler.AllLabels ⟨["cindy/approved/x", "cindy/deploying/x"], none⟩).2.2 = none ∧
    (Repo.labeler.AllLabels ⟨["cindy/approved/x", "cindy/deploying/x"], none⟩).2.1.lookup "x"
      = some Deploying ∧
    mapGet (Repo.labeler.AllLabels ⟨["cindy/approved/x", "cindy/deploying/x"], none⟩).2.1 "x"
      ≠ (Repo.labeler.GetLabel ⟨["cindy/approved/x", "cindy/deploying/x"], none⟩ "x").2.1 := by
  refine ⟨fun b => ?_, fun b => ?_, by decide, by decide, by decide, by decide⟩
  · rw [getLabel_of_listed gl s s1 tags b hlist, allLabels_of_listed gl s s1 tags hlist]
    exact getLabel_loop_eq_mapGet tags b (huniq b)
  · rw [getLabel_of_listed gl s s1 tags b hlist, allLabels_of_listed gl s s1 tags hlist]
    exact ⟨rfl, rfl⟩

/-- C26 on a listing with a single tag. -/
theorem C26_getLabel_allLabels_first_last_witness :
    (Repo.labeler.GetLabel ⟨["cindy/approved/x"], none⟩ "x").2.1 =
      mapGet (Repo.labeler.AllLabels ⟨["cindy/approved/x"], none⟩).2.1 "x" :=
  (C26_getLabel_allLabels_first_last Repo.labeler ⟨["cindy/approved/x"], none⟩ _
    ["cindy/approved/x"] rfl (fun _ => List.length_filter_le _ _)).1 "x"

/-! ## A failed creation loses the label -/

theorem refusing_loop_eq (refused : String → Bool) (b : String) (ts : List String)
    (r : Repo) :
    GitLabeler.SetLabel.loop (Repo.labelerRefusing refused) b r ts =
      GitLabeler.SetLabel.loop Repo.labeler b r ts := by
  induction ts generalizing r with
  | nil => rfl
  | cons t ts ih =>
    rw [setLabel_loop_cons, setLabel_loop_cons]
    simp only [ih]
    rfl

/-- On a repository whose `git tag` refuses the new tag name, `SetLabel` fails
after the deletions: the tags that decoded to the branch are gone. -/
theorem refusing_setLabel (refused : String → Bool) (r : Repo) (l : Label) (b : String)
    (hnd : r.tags.Nodup)
    (hperm : r.listing.Perm (r.tags.filter (fun t => strings.HasPrefix t TagPrefix)))
    (href : refused (TagName l b) = true) :
    ((Repo.labelerRefusing refused).SetLabel r b l).2 =
      some ("creating tag " ++ TagName l b ++ ": " ++
        ("fatal: cannot create tag " ++ TagName l b)) ∧
    ((Repo.labelerRefusing refused).SetLabel r b l).1.tags =
      r.tags.filter (fun t => !decodesTo b t) := by
  obtain ⟨h1, h3⟩ := repo_setLabel_deletes b r hnd hperm
  have hloop : GitLabeler.SetLabel.loop (Repo.labelerRefusing refused) b r r.listing =
      ((GitLabeler.SetLabel.loop Repo.labeler b r r.listing).1, none) := by
    rw [refusing_loop_eq]
    exact Prod.ext rfl h1
  have hlist : (Repo.labelerRefusing refused).listTags r = (r, .ok r.listing) := rfl
  have hcreate : ∀ s2 : Repo, (Repo.labelerRefusing refused).tagCreate s2 (TagName l b) =
      (s2, some ("fatal: cannot create tag " ++ TagName l b)) := by
    intro s2
    unfold Repo.labelerRefusing
    simp only [href, if_true]
  unfold GitLabeler.SetLabel
  rw [hlist]
  simp only []
  rw [hloop]
  simp only [hcreate]
  exact ⟨trivial, h3⟩

theorem refusing_getLabel (refused : String → Bool) (r : Repo) (b : String) :
    (Repo.labelerRefusing refused).GetLabel r b =
      (r, GitLabeler.GetLabel.loop b r.listing, none) := rfl

/-- C27: `SetLabel` is not atomic on error.  On the repository whose only tag
is `cindy/approved/x`, with a `git tag` that refuses to create
`cindy/deploying/x`: the branch `x` carries the label `Approved`, the local
deletion of its old tag succeeds, the local creation of the new tag fails,
`SetLabel x Deploying` returns an error, and afterwards no tag is left, so no
tag decodes to `x` and `GetLabel x` returns the empty label.  The same happens
without any refusal when the new tag name exists already and does not decode
(a label outside the vocabulary), and when the new tag name is in conflict
with the tag of a nested branch (`cindy/deploying/x` beside
`cindy/deploying/x/y`).  In general, whenever the creation is refused on a
repository whose tag names hold no white space, `SetLabel` returns an error
and afterwards no tag decodes to the branch, whatever was there before. -/
theorem C27_setLabel_not_atomic :
    (Repo.labeler.GetLabel ⟨["cindy/approved/x"], none⟩ "x").2 = (Approved, none) ∧
    ((Repo.labelerRefusing (fun t => t == "cindy/deploying/x")).deleteTag
        ⟨["cindy/approved/x"], none⟩ "cindy/approved/x").2 = none ∧
    ((Repo.labelerRefusing (fun t => t == "cindy/deploying/x")).tagCreate
        ⟨[], none⟩ "cindy/deploying/x").2 ≠ none ∧
    ((Repo.labelerRefusing (fun t => t == "cindy/deploying/x")).SetLabel
        ⟨["cindy/approved/x"], none⟩ "x" Deploying).2 ≠ none ∧
    ((Repo.labelerRefusing (fun t => t == "cindy/deploying/x")).SetLabel
        ⟨["cindy/approved/x"], none⟩ "x" Deploying).1.tags = [] ∧
    ((Repo.labelerRefusing (fun t => t == "cindy/deploying/x")).GetLabel
        ((Repo.labelerRefusing (fun t => t == "cindy/deploying/x")).SetLabel
          ⟨["cindy/approved/x"], none⟩ "x" Deploying).1 "x").2 = ("", none) ∧
    ((Repo.labeler.SetLabel ⟨["cindy/approved/x", "cindy/unknown/x"], none⟩
        "x" "cindy:unknown").2 ≠ none ∧
      (Repo.labeler.SetLabel ⟨["cindy/approved/x", "cindy/unknown/x"], none⟩
        "x" "cindy:unknown").1.tags = ["cindy/unknown/x"] ∧
      (Repo.labeler.GetLabel
        (Repo.labeler.SetLabel ⟨["cindy/approved/x", "cindy/unknown/x"], none⟩
          "x" "cindy:unknown").1 "x").2 = ("", none)) ∧
    ((Repo.labeler.GetLabel ⟨["cindy/approved/x", "cindy/deploying/x/y"], none⟩ "x").2
        = (Approved, none) ∧
      (Repo.labeler.SetLabel ⟨["cindy/approved/x", "cindy/deploying/x/y"], none⟩
        "x" Deploying).2 ≠ none ∧
      (Repo.labeler.SetLabel ⟨["cindy/approved/x", "cindy/deploying/x/y"], none⟩
        "x" Deploying).1.tags = ["cindy/deploying/x/y"] ∧
      (Repo.labeler.GetLabel
        (Repo.labeler.SetLabel ⟨["cindy/approved/x", "cindy/deploying/x/y"], none⟩
          "x" Deploying).1 "x").2 = ("", none)) ∧
    (∀ (refused : String → Bool) (r : Repo) (l : Label) (b : String),
      r.tags.Nodup → (∀ t ∈ r.tags, noSpace t = true) → refused (TagName l b) = true →
      ((Repo.labelerRefusing refused).SetLabel r b l).2 ≠ none ∧
      (∀ t ∈ ((Repo.labelerRefusing refused).SetLabel r b l).1.tags,
        decodesTo b t = false) ∧
      ((Repo.labelerRefusing refused).GetLabel
        ((Repo.labelerRefusing refused).SetLabel r b l).1 b).2 = ("", none)) := by
  refine ⟨by decide, by decide, by decide, by decide, by decide, by decide, by decide,
    by decide, ?_⟩
  intro refused r l b hnd hsp href
  obtain ⟨herr, htags⟩ := refusing_setLabel refused r l b hnd (repo_listing_perm r hsp) href
  have hnone : ∀ t ∈ ((Repo.labelerRefusing refused).SetLabel r b l).1.tags,
      decodesTo b t = false := by
    intro t ht
    rw [htags] at ht
    simpa using (List.mem_filter.1 ht).2
  have hsp2 : ∀ t ∈ ((Repo.labelerRefusing refused).SetLabel r b l).1.tags,
      noSpace t = true := by
    intro t ht
    rw [htags] at ht
    exact hsp t (List.mem_filter.1 ht).1
  refine ⟨by rw [herr]; simp, hnone, ?_⟩
  rw [refusing_getLabel]
  simp only []
  rw [getLabel_loop_none b _ (fun x hx =>
    hnone x (List.mem_filter.1 ((List.Perm.mem_iff (repo_listing_perm _ hsp2)).1 hx)).1)]

end Cindy
